import Mathlib

/-!
# Verification of the two-location rental MDP policy-iteration solver

Shallow embedding of `src/exercise4_7.rs`.  All `f64` arithmetic is
modelled over `ℚ` (exact arithmetic); `i32` values are modelled as `ℤ`.
The Poisson utility (`crate::poisson`) is external and appears as a pair
of functions together with the contract stated in the specification.
The dense offset-indexed container (`crate::nd_vec`, not among the
sources) is modelled from the spec: a closed-interval keyed dense
vector whose in-order iteration matches construction (push) order.
-/

namespace RLX

/-- Modelled from the spec: the external Poisson utility, supplying a
point-mass function and a cumulative-mass function over the
non-negative integers (`poisson.rs` is not among the sources; only the
contract of section 6 is used). -/
structure Poisson where
  pmf : ℕ → ℚ
  cdf : ℕ → ℚ

/-- The spec's Poisson contract: non-negative point masses, `cdf` the
partial sums of `pmf`, and `cdf` bounded by `1`. -/
def PoissonContract (dist : Poisson) : Prop :=
  (∀ n, 0 ≤ dist.pmf n) ∧
  (∀ v : ℕ, dist.cdf v = ∑ i in Finset.range (v + 1), dist.pmf i) ∧
  (∀ v : ℕ, dist.cdf v ≤ 1)

/-- Rust's `f64::round`: round to the nearest integer, ties away from
zero. -/
def rustRound (x : ℚ) : ℤ := if 0 ≤ x then ⌊x + 1 / 2⌋ else ⌈x - 1 / 2⌉

/-- `GraphInfo` from the source: the scenario configuration. -/
structure GraphInfo where
  dist_rent_0 : Poisson
  dist_rent_1 : Poisson
  dist_return_0 : Poisson
  dist_return_1 : Poisson
  move_limit : ℤ
  state_range : ℤ
  rent_reward : ℤ

/-- `GraphChange` from the source: the optional problem changes. -/
structure GraphChange where
  free_shuttle : ℤ
  parking_limit : ℤ
  parking_cost : ℤ

/-- `AgentInfo` from the source. -/
structure AgentInfo where
  discount : ℚ
  theta : ℚ
  max_iter : ℤ

/-- `StateDesc` from the source. -/
structure StateDesc where
  name : String
  count : ℤ × ℤ
  rent : ℚ × ℚ
  deriving DecidableEq

/-- `Transition` from the source (`from` and `to` are Lean keywords,
hence `from_` and `to_`). -/
structure Transition where
  action : ℤ
  from_ : ℤ × ℤ
  to_ : ℤ × ℤ
  prob : ℚ
  deriving DecidableEq

/-- `State` from the source.  The `BTreeMap<i32, Vec<i32>>` field is
modelled as an association list sorted by strictly ascending key, which
is exactly the ordered-map behaviour the code relies on. -/
structure State where
  desc : StateDesc
  reward : ℚ
  action : List (ℤ × List ℕ)
  transition : List Transition
  state_v : ℚ
  deriving DecidableEq

/-- `ActionDesc` from the source. -/
structure ActionDesc where
  name : String
  deriving DecidableEq

/-- `Action` from the source. -/
structure Action where
  desc : ActionDesc
  reward : ℚ
  deriving DecidableEq

/-- `Graph` from the source; the two dense containers are modelled as
lists in push order, together with the interval bounds the containers
were created with (`(0, state_range)` twice for states,
`(-move_limit, move_limit)` for actions). -/
structure Graph where
  state : List State
  action : List Action
  state_range : ℤ
  move_limit : ℤ
  deriving DecidableEq

instance : Inhabited StateDesc := ⟨{ name := "", count := (0, 0), rent := (0, 0) }⟩

instance : Inhabited Transition := ⟨{ action := 0, from_ := (0, 0), to_ := (0, 0), prob := 0 }⟩

instance : Inhabited State :=
  ⟨{ desc := default, reward := 0, action := [], transition := [], state_v := 0 }⟩

instance : Inhabited Action := ⟨{ desc := { name := "" }, reward := 0 }⟩

/-- `State::new`. -/
def State.new (desc : StateDesc) (reward : ℚ) : State :=
  { desc := desc, reward := reward, action := [], transition := [], state_v := 0 }

/-- `State::count`. -/
def State.count (s : State) : ℤ × ℤ := s.desc.count

/-- `State::rent`. -/
def State.rent (s : State) : ℚ × ℚ := s.desc.rent

/-- `State::expected_count`: inventory counts minus expected rentals. -/
def State.expected_count (s : State) : ℚ × ℚ :=
  ((s.desc.count.1 : ℚ) - s.desc.rent.1, (s.desc.count.2 : ℚ) - s.desc.rent.2)

/-- `Action::new`. -/
def Action.new (desc : ActionDesc) (reward : ℚ) : Action :=
  { desc := desc, reward := reward }

/-- Modelled from the spec: the flat index used by the dense
offset-indexed pair container (`NdVec2` of `nd_vec.rs`, not among the
sources).  The program only creates pair containers with both key
intervals equal to `[0, sr]`; a key in range addresses the record at
flat position `y * (sr + 1) + x`, which matches the model builder's
construction order; an out-of-range key fails fast. -/
def ndIdx2 (sr : ℤ) (c : ℤ × ℤ) : Option ℕ :=
  if 0 ≤ c.1 ∧ c.1 ≤ sr ∧ 0 ≤ c.2 ∧ c.2 ≤ sr then some (c.2 * (sr + 1) + c.1).toNat else none

/-- State lookup by count pair (`g.state[c]`), fallible form. -/
def Graph.stateAt? (g : Graph) (c : ℤ × ℤ) : Option State :=
  (ndIdx2 g.state_range c).bind (fun i => g.state.get? i)

/-- State lookup by count pair, totalised with a junk default (the
fallible form returning `none` is the container's fail-fast panic). -/
def Graph.stateAt (g : Graph) (c : ℤ × ℤ) : State := (g.stateAt? c).getD default

/-- Action lookup by signed move (`g.action[k]`), fallible form.  The
1-dimensional container was created with key interval
`[-move_limit, move_limit]`. -/
def Graph.actionAt? (g : Graph) (k : ℤ) : Option Action :=
  if -g.move_limit ≤ k ∧ k ≤ g.move_limit then g.action.get? (k + g.move_limit).toNat
  else none

/-- Action lookup by signed move, totalised with a junk default. -/
def Graph.actionAt (g : Graph) (k : ℤ) : Action := (g.actionAt? k).getD default

/-- `Transition::reward`: state reward of the source state, plus action
reward, plus discounted value of the destination state. -/
def Transition.reward (t : Transition) (g : Graph) (discount : ℚ) : ℚ :=
  (g.stateAt t.from_).reward + (g.actionAt t.action).reward +
    discount * (g.stateAt t.to_).state_v

/-- `Graph::state_name`. -/
def Graph.state_name (m n : ℤ) : String := toString m ++ "_" ++ toString n

/-- `Graph::action_name` (the `{:+}` format always writes a sign). -/
def Graph.action_name (v : ℤ) : String :=
  (if 0 ≤ v then "+" else "") ++ toString v

/-- `Graph::expected_count`: the truncated expectation
`Σ_{n=0..v} pmf(n)·n + (1 − cdf(v))·v`.  The source takes an `i32` and
casts it to `usize`; every call site passes a non-negative value, so
the parameter is `ℕ` here. -/
def Graph.expected_count (v : ℕ) (dist : Poisson) : ℚ :=
  (∑ n in Finset.range (v + 1), dist.pmf n * n) + (1 - dist.cdf v) * v

/-- The inclusive integer range `a..=b` of Rust loops, as a list
(empty when `b < a`). -/
def rangeIncl (a b : ℤ) : List ℤ :=
  (List.range (b + 1 - a).toNat).map (fun (j : ℕ) => a + (j : ℤ))

/-- `Graph::add_transition_for_move`: append the single
expected-destination transition for move `k` to the state. -/
def Graph.add_transition_for_move (s : State) (k : ℤ) (gi : GraphInfo) : State :=
  let c := s.expected_count
  let sr := gi.state_range
  let return0 := Graph.expected_count sr.toNat gi.dist_return_0
  let return1 := Graph.expected_count sr.toNat gi.dist_return_1
  let dst : ℤ × ℤ :=
    (max (min sr (rustRound (c.1 - (k : ℚ) + return0))) 0,
     max (min sr (rustRound (c.2 + (k : ℚ) + return1))) 0)
  { s with transition := s.transition ++ [{ action := k, from_ := s.count, to_ := dst, prob := 1 }] }

/-- `BTreeMap::entry(k)` followed by pushing `i`: ordered-map insertion
into the sorted association list. -/
def btreeInsert (k : ℤ) (i : ℕ) : List (ℤ × List ℕ) → List (ℤ × List ℕ)
  | [] => [(k, [i])]
  | e :: rest =>
    if k < e.1 then (k, [i]) :: e :: rest
    else if k = e.1 then (e.1, e.2 ++ [i]) :: rest
    else e :: btreeInsert k i rest

/-- The loop body of `Graph::parse_action`: insert each transition
index under its action tag, indices counted from `i`. -/
def parseActionAux : List Transition → ℕ → List (ℤ × List ℕ) → List (ℤ × List ℕ)
  | [], _, m => m
  | t :: ts, i, m => parseActionAux ts (i + 1) (btreeInsert t.action i m)

/-- `Graph::parse_action`: group the indices of a state's transition
list by action tag. -/
def Graph.parse_action (ts : List Transition) : List (ℤ × List ℕ) := parseActionAux ts 0 []

/-- `BTreeMap` key lookup on the association list. -/
def mapFind? (m : List (ℤ × List ℕ)) (a : ℤ) : Option (List ℕ) :=
  (m.find? (fun e => e.1 == a)).map (fun e => e.2)

/-- The state built by `Graph::setup` for count pair `(m, n)` before
transitions are added: expected rentals from the truncated
expectation at the current count, state reward from rentals and the
optional parking penalty. -/
def setupStateBase (gi : GraphInfo) (c : Option GraphChange) (m n : ℤ) : State :=
  let rent0 := Graph.expected_count m.toNat gi.dist_rent_0
  let rent1 := Graph.expected_count n.toNat gi.dist_rent_1
  let parking : ℤ :=
    match c with
    | some v =>
        (if m > v.parking_limit then -v.parking_cost else 0) +
          (if n > v.parking_limit then -v.parking_cost else 0)
    | none => 0
  State.new
    { name := Graph.state_name m n, count := (m, n), rent := (rent0, rent1) }
    ((rent0 + rent1) * (gi.rent_reward : ℚ) + (parking : ℚ))

/-- The per-state transition construction of `Graph::setup`: the self
move, the outward moves `1..=L`, the inward moves `-1..=-L`, then
`parse_action`. -/
def setupState (gi : GraphInfo) (c : Option GraphChange) (m n : ℤ) : State :=
  let s1 := Graph.add_transition_for_move (setupStateBase gi c m n) 0 gi
  let s2 := (rangeIncl 1 gi.move_limit).foldl
    (fun st k => Graph.add_transition_for_move st k gi) s1
  let s3 := (rangeIncl 1 gi.move_limit).foldl
    (fun st k => Graph.add_transition_for_move st (-k) gi) s2
  { s3 with action := Graph.parse_action s3.transition }

/-- The action built by `Graph::setup` for move `k`: reward
`(|k| - credit) * (-2)` with the free-shuttle credit only for outward
moves under the optional change. -/
def setupAction (c : Option GraphChange) (k : ℤ) : Action :=
  Action.new { name := Graph.action_name k }
    (((|k| - match c with
        | some v => if 0 < k then v.free_shuttle else 0
        | none => 0 : ℤ) : ℚ) * (-2))

/-- `Graph::setup`, applied to the empty graph of `Graph::new`: states
for every count pair (inner loop over the first coordinate), actions
for every signed move, then per-state transitions and action index. -/
def Graph.setup (gi : GraphInfo) (c : Option GraphChange) : Graph :=
  { state := (rangeIncl 0 gi.state_range).flatMap (fun n =>
      (rangeIncl 0 gi.state_range).map (fun m => setupState gi c m n)),
    action := (rangeIncl (-gi.move_limit) gi.move_limit).map (fun k => setupAction c k),
    state_range := gi.state_range,
    move_limit := gi.move_limit }

/-- `Policy` from the source: the dense count-pair-indexed vector of
chosen action values, with the bound it was created with. -/
structure Policy where
  state_action : List ℤ
  state_range : ℤ
  deriving DecidableEq

/-- `Policy::new`: `(R+1)²` entries, all `0`. -/
def Policy.new (gi : GraphInfo) : Policy :=
  { state_action :=
      List.replicate (((gi.state_range + 1) * (gi.state_range + 1)).toNat) 0,
    state_range := gi.state_range }

/-- Policy lookup `p.state_action[c]`, fallible form. -/
def Policy.actionOf? (p : Policy) (c : ℤ × ℤ) : Option ℤ :=
  (ndIdx2 p.state_range c).bind (fun i => p.state_action.get? i)

/-- Policy lookup, totalised with a junk default. -/
def Policy.actionOf (p : Policy) (c : ℤ × ℤ) : ℤ := (p.actionOf? c).getD 0

/-- Policy write `p.state_action[c] = a` (out-of-range keys are the
container's fail-fast panic; totalised as a no-op). -/
def Policy.setAct (p : Policy) (c : ℤ × ℤ) (a : ℤ) : Policy :=
  match ndIdx2 p.state_range c with
  | some i => { p with state_action := p.state_action.set i a }
  | none => p

/-- The one-step lookahead sum shared by both engine phases: over the
given transition indices of state `s`, `prob × Transition::reward`
(successor values read from `gs`). -/
def lookahead (gs : Graph) (discount : ℚ) (s : State) (tIndex : List ℕ) : ℚ :=
  (tIndex.map (fun j =>
    let t := s.transition.getD j default
    t.prob * t.reward gs discount)).sum

/-- One state update of the evaluation sweep: look up the policy's
action for the state, fetch its transition indices from the state's
per-action map (a missing key is the map's panic, totalised with `[]`),
and sum the lookahead. -/
def evalState (gs : Graph) (p : Policy) (discount : ℚ) (s : State) : ℚ :=
  let a := p.actionOf s.count
  let tIndex := (mapFind? s.action a).getD []
  lookahead gs discount s tIndex

/-- The in-place update of one state during an evaluation sweep: the
new value is computed from the current, partially-updated graph (the
aliased shared reference of the source) and overwrites the state's
value estimate. -/
def sweepStep (p : Policy) (d : ℚ) (g : Graph) (i : ℕ) : Graph :=
  { g with state := g.state.set i { g.state.getD i default with
      state_v := evalState g p d (g.state.getD i default) } }

/-- The body of one evaluation sweep: update states in iteration order
starting at position `i`, in place, and accumulate the largest absolute
change.  `fuel` counts the remaining states (the caller passes the
state count). -/
def sweepGo (p : Policy) (d : ℚ) : ℕ → Graph → ℕ → ℚ → Graph × ℚ
  | 0, g, _, delta => (g, delta)
  | fuel + 1, g, i, delta =>
    sweepGo p d fuel (sweepStep p d g i) (i + 1)
      (max delta |evalState g p d (g.state.getD i default) -
        (g.state.getD i default).state_v|)

/-- One full evaluation sweep over all states, returning the updated
graph and the sweep's `delta`. -/
def sweep (g : Graph) (p : Policy) (d : ℚ) : Graph × ℚ :=
  sweepGo p d g.state.length g 0 0

/-- The sweep loop of `evaluate_policy`: always at least one sweep;
after each sweep stop when `delta ≤ theta` or the sweep budget is
exhausted.  Returns the final graph and the number of sweeps
performed. -/
def evalLoop (p : Policy) (info : AgentInfo) : Graph → ℕ → Graph × ℕ
  | g, 0 => ((sweep g p info.discount).1, 1)
  | g, fuel + 1 =>
    if (sweep g p info.discount).2 ≤ info.theta then ((sweep g p info.discount).1, 1)
    else ((evalLoop p info (sweep g p info.discount).1 fuel).1,
      (evalLoop p info (sweep g p info.discount).1 fuel).2 + 1)

/-- `evaluate_policy`: the loop breaks when `delta ≤ theta` or the
sweep counter reaches `max_iter`, so it runs at most
`max (max_iter, 1)` sweeps. -/
def evaluate_policy (g : Graph) (p : Policy) (info : AgentInfo) : Graph :=
  (evalLoop p info g (info.max_iter - 1).toNat).1

/-- `Iterator::max_by` with `f64::total_cmp`: fold keeping the later
element on ties, so among equally-maximal elements the last one is
returned; `none` exactly on the empty list. -/
def maxByLast (l : List (ℤ × ℚ)) : Option (ℤ × ℚ) :=
  match l with
  | [] => none
  | x :: xs => some (xs.foldl (fun acc y => if acc.2 ≤ y.2 then y else acc) x)

/-- The greedy selection of `improve_policy` for one state: the
one-step lookahead value of every entry of the state's per-action map
(in ascending key order), maximised with `max_by`; `none` is the
`.unwrap()` panic on an empty map. -/
def selectAction (g : Graph) (discount : ℚ) (s : State) : Option ℤ :=
  (maxByLast (s.action.map (fun e => (e.1, lookahead g discount s e.2)))).map (fun e => e.1)

/-- The loop body of `improve_policy` over the remaining states:
compare the previously assigned action with the greedy one, write the
greedy action, and accumulate `policy_stable`. -/
def improveGo (g : Graph) (info : AgentInfo) : List State → Policy × Bool → Policy × Bool
  | [], acc => acc
  | s :: rest, acc =>
    improveGo g info rest
      (acc.1.setAct s.count ((selectAction g info.discount s).getD 0),
       acc.2 && (acc.1.actionOf s.count == (selectAction g info.discount s).getD 0))

/-- `improve_policy`: greedy improvement over all states, returning the
updated policy and whether no state's action changed. -/
def improve_policy (p : Policy) (g : Graph) (info : AgentInfo) : Policy × Bool :=
  improveGo g info g.state (p, true)

/-- One round of the outer loop of `run`: evaluation then
improvement. -/
def policy_iteration_step (g : Graph) (p : Policy) (info : AgentInfo) :
    Graph × Policy × Bool :=
  (evaluate_policy g p info,
   (improve_policy p (evaluate_policy g p info) info).1,
   (improve_policy p (evaluate_policy g p info) info).2)

/-- The graph/policy pair after `n` rounds of the outer loop. -/
def runState (info : AgentInfo) : Graph × Policy → ℕ → Graph × Policy
  | gp, 0 => gp
  | gp, n + 1 =>
    runState info
      ((policy_iteration_step gp.1 gp.2 info).1,
       (policy_iteration_step gp.1 gp.2 info).2.1) n

/-- Whether the improvement pass of round `n + 1` (counting from
`stableAt _ _ 0` for the first round) reports a stable policy. -/
def stableAt (info : AgentInfo) (gp : Graph × Policy) (n : ℕ) : Bool :=
  (policy_iteration_step (runState info gp n).1 (runState info gp n).2 info).2.2

/-- The outer loop of `run` (`loop { evaluate; improve; if stable break }`),
with an explicit round budget since the source loop has no bound of its
own: `none` means the budget was exhausted before an improvement pass
reported no change. -/
def runLoop (info : AgentInfo) : Graph × Policy → ℕ → Option (Graph × Policy)
  | _, 0 => none
  | gp, fuel + 1 =>
    if (policy_iteration_step gp.1 gp.2 info).2.2 then
      some ((policy_iteration_step gp.1 gp.2 info).1,
        (policy_iteration_step gp.1 gp.2 info).2.1)
    else
      runLoop info
        ((policy_iteration_step gp.1 gp.2 info).1,
         (policy_iteration_step gp.1 gp.2 info).2.1) fuel

/-- The graph after `n` evaluation sweeps under a fixed policy. -/
def sweepN (p : Policy) (d : ℚ) (g : Graph) : ℕ → Graph
  | 0 => g
  | n + 1 => (sweep (sweepN p d g n) p d).1

/-- The `delta` of the `n`-th evaluation sweep (`n ≥ 1`). -/
def deltaN (p : Policy) (d : ℚ) (g : Graph) (n : ℕ) : ℚ :=
  (sweep (sweepN p d g (n - 1)) p d).2

/-- The transition `Graph::setup` emits from descriptor `d` for move
`k` (the closed form of `add_transition_for_move`). -/
def transitionFor (gi : GraphInfo) (d : StateDesc) (k : ℤ) : Transition :=
  { action := k, from_ := d.count,
    to_ :=
      (max (min gi.state_range (rustRound (((d.count.1 : ℚ) - d.rent.1) - (k : ℚ) +
        Graph.expected_count gi.state_range.toNat gi.dist_return_0))) 0,
       max (min gi.state_range (rustRound (((d.count.2 : ℚ) - d.rent.2) + (k : ℚ) +
        Graph.expected_count gi.state_range.toNat gi.dist_return_1))) 0),
    prob := 1 }

/-- The indices (counted from `i`) of the transitions of `ts` tagged
with action `a`. -/
def actIndices : List Transition → ℕ → ℤ → List ℕ
  | [], _, _ => []
  | t :: ts, i, a => (if t.action = a then [i] else []) ++ actIndices ts (i + 1) a

/-- All policy entries lie in the signed move range `[-L, L]`. -/
def PolicyInRange (L : ℤ) (p : Policy) : Prop :=
  ∀ a ∈ p.state_action, -L ≤ a ∧ a ≤ L

/-- Every state's count pair addresses a valid, distinct slot of the
policy vector — the well-formedness the program guarantees by
construction. -/
def GoodCounts (g : Graph) (p : Policy) : Prop :=
  (∀ s ∈ g.state, (ndIdx2 p.state_range s.count).isSome ∧
    (ndIdx2 p.state_range s.count).getD 0 < p.state_action.length) ∧
  (g.state.map (fun s => ndIdx2 p.state_range s.count)).Nodup

instance (g : Graph) (p : Policy) : Decidable (GoodCounts g p) := by
  unfold GoodCounts
  infer_instance

/-! ## Concrete fixtures used by witnesses and counterexamples -/

/-- A distribution with no mass anywhere; it satisfies the Poisson
contract and makes every truncated expectation equal to its cap. -/
def trivialPoisson : Poisson := ⟨fun _ => 0, fun _ => 0⟩

/-- A minimal scenario: one state `(0, 0)`, moves `-1, 0, 1`, no
rental reward. -/
def gi0 : GraphInfo :=
  { dist_rent_0 := trivialPoisson, dist_rent_1 := trivialPoisson,
    dist_return_0 := trivialPoisson, dist_return_1 := trivialPoisson,
    move_limit := 1, state_range := 0, rent_reward := 0 }

/-- A change configuration enabling the free shuttle (as in `run`)
with no reachable parking penalty. -/
def ch0 : GraphChange := { free_shuttle := 1, parking_limit := 1, parking_cost := 0 }

/-- The model built from the minimal scenario with the free shuttle
enabled: action rewards are `-2, 0, 0` for moves `-1, 0, 1`, so the
moves `0` and `1` tie in one-step lookahead value. -/
def g0 : Graph := Graph.setup gi0 (some ch0)

/-- The fresh all-zero policy for the minimal scenario. -/
def p0 : Policy := Policy.new gi0

/-- Agent parameters for the minimal scenario. -/
def info0 : AgentInfo := { discount := 9 / 10, theta := 1 / 10, max_iter := 16 }

/-- The unique state of the minimal scenario. -/
def s0 : State := g0.state.getD 0 default

/-! ## C8: the truncated expectation under the Poisson contract -/

lemma expected_count_succ (dist : Poisson)
    (hcdf : ∀ v : ℕ, dist.cdf v = ∑ i in Finset.range (v + 1), dist.pmf i) (v : ℕ) :
    Graph.expected_count (v + 1) dist =
      Graph.expected_count v dist + (1 - dist.cdf v) := by
  have h1 : dist.cdf (v + 1) = dist.cdf v + dist.pmf (v + 1) := by
    rw [hcdf, hcdf, Finset.sum_range_succ]
  unfold Graph.expected_count
  rw [Finset.sum_range_succ, h1]
  push_cast
  ring

lemma expected_count_le_cap (dist : Poisson) (h : PoissonContract dist) (v : ℕ) :
    Graph.expected_count v dist ≤ (v : ℚ) := by
  obtain ⟨hpmf, hcdf, _⟩ := h
  have hsum : (∑ n in Finset.range (v + 1), dist.pmf n * n) ≤
      (∑ n in Finset.range (v + 1), dist.pmf n) * v := by
    rw [Finset.sum_mul]
    refine Finset.sum_le_sum (fun i hi => ?_)
    refine mul_le_mul_of_nonneg_left ?_ (hpmf i)
    exact_mod_cast Nat.le_of_lt_succ (Finset.mem_range.mp hi)
  have hc : dist.cdf v = ∑ n in Finset.range (v + 1), dist.pmf n := hcdf v
  unfold Graph.expected_count
  nlinarith [hsum, hc]

/-- C8: assuming the Poisson contract — non-negative point masses over
the non-negative integers, `cdf(v) = Σ_{i≤v} pmf(i)`, and `cdf(v) ≤ 1`
— the truncated expectation
`truncatedExpectation(v, dist) = Σ_{n=0..v} pmf(n)·n + (1 − cdf(v))·v`
is non-decreasing in `v` and bounded above by `v`, for every `v ≥ 0`. -/
theorem C8_truncExp_monotone_bounded (dist : Poisson) (h : PoissonContract dist) :
    (∀ v w : ℕ, v ≤ w → Graph.expected_count v dist ≤ Graph.expected_count w dist) ∧
    (∀ v : ℕ, Graph.expected_count v dist ≤ (v : ℚ)) := by
  refine ⟨fun v w hvw => ?_, expected_count_le_cap dist h⟩
  induction w, hvw using Nat.le_induction with
  | base => exact le_refl _
  | succ w _ ih =>
    refine le_trans ih ?_
    rw [expected_count_succ dist h.2.1 w]
    have := h.2.2 w
    linarith

/-- C8 witness: the trivial distribution satisfies the contract, and
the theorem instantiates at `v = 2 ≤ w = 3`. -/
theorem C8_truncExp_monotone_bounded_witness :
    PoissonContract trivialPoisson ∧
    Graph.expected_count 2 trivialPoisson ≤ Graph.expected_count 3 trivialPoisson ∧
    Graph.expected_count 3 trivialPoisson ≤ (3 : ℚ) := by
  have hc : PoissonContract trivialPoisson :=
    ⟨fun _ => le_refl 0, fun v => by simp [trivialPoisson], fun v => by
      simp [trivialPoisson]⟩
  exact ⟨hc, (C8_truncExp_monotone_bounded trivialPoisson hc).1 2 3 (by decide),
    (C8_truncExp_monotone_bounded trivialPoisson hc).2 3⟩

/-! ## Range and container lemmas -/

lemma rangeIncl_mem {a b x : ℤ} : x ∈ rangeIncl a b ↔ a ≤ x ∧ x ≤ b := by
  simp only [rangeIncl, List.mem_map, List.mem_range]
  constructor
  · rintro ⟨j, hj, rfl⟩
    omega
  · intro h
    exact ⟨(x - a).toNat, by omega, by omega⟩

lemma rangeIncl_length (a b : ℤ) : (rangeIncl a b).length = (b + 1 - a).toNat := by
  rw [rangeIncl, List.length_map, List.length_range]

lemma rangeIncl_get? {a b : ℤ} {j : ℕ} (h : (j : ℤ) < b + 1 - a) :
    (rangeIncl a b).get? j = some (a + j) := by
  rw [rangeIncl, List.get?_eq_getElem?, List.getElem?_map, List.getElem?_range (by omega)]
  rfl

/-- The action container of the built model holds `setupAction c k` at
the key `k`, for every in-range `k`. -/
lemma setup_actionAt? (gi : GraphInfo) (c : Option GraphChange) (k : ℤ)
    (h1 : -gi.move_limit ≤ k) (h2 : k ≤ gi.move_limit) :
    (Graph.setup gi c).actionAt? k = some (setupAction c k) := by
  unfold Graph.actionAt? Graph.setup
  simp only
  rw [if_pos ⟨h1, h2⟩, List.get?_eq_getElem?, List.getElem?_map,
    ← List.get?_eq_getElem?, rangeIncl_get? (by omega)]
  have hj : (-gi.move_limit + ((k + gi.move_limit).toNat : ℤ)) = k := by omega
  rw [hj]
  rfl

/-! ## C4: action rewards -/

/-- C4: for every signed move `k` in `[-L, L]`, the action's reward is
`-2 × (|k| - freeCredit)`, where the credit is `1` exactly for outward
moves (`k > 0`) under a change configuration enabling the free shuttle;
concretely `k = 2` yields `-4` with the change disabled, `-2` with the
free shuttle enabled, and `k = -2` yields `-4` regardless of the change
configuration. -/
theorem C4_action_rewards (gi : GraphInfo) (ch : GraphChange) (k : ℤ)
    (h1 : -gi.move_limit ≤ k) (h2 : k ≤ gi.move_limit) :
    ((Graph.setup gi none).actionAt k).reward = -2 * |(k : ℚ)| ∧
    (ch.free_shuttle = 1 →
      ((Graph.setup gi (some ch)).actionAt k).reward =
        -2 * (|(k : ℚ)| - (if 0 < k then 1 else 0))) ∧
    (k = 2 → ((Graph.setup gi none).actionAt k).reward = -4) ∧
    (k = 2 → ch.free_shuttle = 1 →
      ((Graph.setup gi (some ch)).actionAt k).reward = -2) ∧
    (k = -2 → ((Graph.setup gi (some ch)).actionAt k).reward = -4) := by
  have hn := setup_actionAt? gi none k h1 h2
  have hs := setup_actionAt? gi (some ch) k h1 h2
  have habs : ((|k| : ℤ) : ℚ) = |(k : ℚ)| := by push_cast; rfl
  refine ⟨?_, ?_, ?_, ?_, ?_⟩
  · rw [Graph.actionAt, hn]
    simp only [Option.getD_some, setupAction, Action.new]
    push_cast
    ring
  · intro hf
    rw [Graph.actionAt, hs]
    simp only [Option.getD_some, setupAction, Action.new, hf]
    by_cases h0 : 0 < k
    · simp only [if_pos h0]
      push_cast
      ring
    · simp only [if_neg h0]
      push_cast
      ring
  · rintro rfl
    rw [Graph.actionAt, hn]
    simp only [Option.getD_some, setupAction, Action.new]
    norm_num
  · rintro rfl hf
    rw [Graph.actionAt, hs]
    simp only [Option.getD_some, setupAction, Action.new, hf]
    norm_num
  · rintro rfl
    rw [Graph.actionAt, hs]
    simp only [Option.getD_some, setupAction, Action.new]
    norm_num

/-- The minimal scenario widened to move limit `2`, so that the
concrete moves `±2` of C4 exist. -/
def gi1 : GraphInfo :=
  { dist_rent_0 := trivialPoisson, dist_rent_1 := trivialPoisson,
    dist_return_0 := trivialPoisson, dist_return_1 := trivialPoisson,
    move_limit := 2, state_range := 0, rent_reward := 0 }

/-- C4 witness: at move limit `2`, the outward move `2` with the free
shuttle enabled has reward `-2`, and the inward move `-2` has reward
`-4`. -/
theorem C4_action_rewards_witness :
    (-gi1.move_limit ≤ (2 : ℤ) ∧ (2 : ℤ) ≤ gi1.move_limit) ∧
    ((Graph.setup gi1 (some ch0)).actionAt 2).reward = -2 ∧
    ((Graph.setup gi1 (some ch0)).actionAt (-2)).reward = -4 :=
  ⟨⟨by decide, by decide⟩,
   (C4_action_rewards gi1 ch0 2 (by decide) (by decide)).2.2.2.1 rfl rfl,
   (C4_action_rewards gi1 ch0 (-2) (by decide) (by decide)).2.2.2.2 rfl⟩

/-! ## The per-action index built by `parse_action` -/

/-- Lookup result of the per-action map, defaulted to the empty index
list. -/
def lookupList (m : List (ℤ × List ℕ)) (a : ℤ) : List ℕ := (mapFind? m a).getD []

/-- Entries of the association list have strictly ascending keys — the
`BTreeMap` invariant. -/
def MapSorted (m : List (ℤ × List ℕ)) : Prop :=
  List.Pairwise (fun e1 e2 => e1.1 < e2.1) m

lemma mapFind?_nil (a : ℤ) : mapFind? [] a = none := rfl

lemma mapFind?_cons (e : ℤ × List ℕ) (m : List (ℤ × List ℕ)) (a : ℤ) :
    mapFind? (e :: m) a = if e.1 = a then some e.2 else mapFind? m a := by
  by_cases h : e.1 = a
  · simp [mapFind?, List.find?_cons, h]
  · simp [mapFind?, List.find?_cons, h]

lemma mapFind?_eq_none_of_lt (m : List (ℤ × List ℕ)) (a : ℤ)
    (h : ∀ b ∈ m, a < b.1) : mapFind? m a = none := by
  induction m with
  | nil => rfl
  | cons e rest ih =>
    rw [mapFind?_cons, if_neg (by have := h e (by simp); omega)]
    exact ih (fun b hb => h b (by simp [hb]))

lemma btreeInsert_key_mem {k : ℤ} {i : ℕ} {m : List (ℤ × List ℕ)} {b : ℤ × List ℕ}
    (hb : b ∈ btreeInsert k i m) : b.1 = k ∨ b.1 ∈ m.map (fun e => e.1) := by
  induction m with
  | nil => simp [btreeInsert] at hb; simp [hb]
  | cons e rest ih =>
    by_cases h1 : k < e.1
    · simp only [btreeInsert, if_pos h1, List.mem_cons] at hb
      rcases hb with h | h | h
      · simp [h]
      · simp [h]
      · right
        simp only [List.map_cons, List.mem_cons]
        exact Or.inr (List.mem_map_of_mem (fun e => e.1) h)
    · by_cases h2 : k = e.1
      · simp only [btreeInsert, if_neg h1, if_pos h2, List.mem_cons] at hb
        rcases hb with h | h
        · simp [h, h2]
        · simp only [List.map_cons, List.mem_cons]
          right
          right
          exact List.mem_map_of_mem (fun e => e.1) h
      · simp only [btreeInsert, if_neg h1, if_neg h2, List.mem_cons] at hb
        rcases hb with h | h
        · simp [h]
        · rcases ih h with h3 | h3
          · exact Or.inl h3
          · simp only [List.map_cons, List.mem_cons]
            exact Or.inr (Or.inr h3)

lemma btreeInsert_sorted {k : ℤ} {i : ℕ} {m : List (ℤ × List ℕ)}
    (hm : MapSorted m) : MapSorted (btreeInsert k i m) := by
  induction m with
  | nil => simp [btreeInsert, MapSorted]
  | cons e rest ih =>
    rw [MapSorted, List.pairwise_cons] at hm
    by_cases h1 : k < e.1
    · rw [MapSorted]
      simp only [btreeInsert, if_pos h1]
      rw [List.pairwise_cons]
      refine ⟨?_, List.pairwise_cons.mpr hm⟩
      intro b hb
      rcases List.mem_cons.mp hb with h | h
      · rw [h]
        exact h1
      · have := hm.1 b h
        omega
    · by_cases h2 : k = e.1
      · rw [MapSorted]
        simp only [btreeInsert, if_neg h1, if_pos h2]
        rw [List.pairwise_cons]
        exact ⟨hm.1, hm.2⟩
      · rw [MapSorted]
        simp only [btreeInsert, if_neg h1, if_neg h2]
        rw [List.pairwise_cons]
        refine ⟨?_, ih hm.2⟩
        intro b hb
        rcases btreeInsert_key_mem hb with h | h
        · omega
        · rcases List.mem_map.mp h with ⟨e2, he2, he2k⟩
          have := hm.1 e2 he2
          omega

lemma mapFind?_btreeInsert (k : ℤ) (i : ℕ) (m : List (ℤ × List ℕ))
    (hm : MapSorted m) (a : ℤ) :
    mapFind? (btreeInsert k i m) a =
      if a = k then some (lookupList m k ++ [i]) else mapFind? m a := by
  induction m with
  | nil =>
    by_cases h : a = k
    · subst h
      rw [show btreeInsert a i [] = [(a, [i])] from rfl, mapFind?_cons, if_pos rfl,
        if_pos rfl]
      rfl
    · rw [show btreeInsert k i [] = [(k, [i])] from rfl, mapFind?_cons,
        if_neg (fun hh => h hh.symm), if_neg h]
  | cons e rest ih =>
    rw [MapSorted, List.pairwise_cons] at hm
    by_cases h1 : k < e.1
    · have hnone : mapFind? (e :: rest) k = none := by
        refine mapFind?_eq_none_of_lt _ _ ?_
        intro b hb
        rcases List.mem_cons.mp hb with h | h
        · rw [h]
          exact h1
        · have := hm.1 b h
          omega
      simp only [btreeInsert, if_pos h1]
      by_cases h : a = k
      · subst h
        rw [mapFind?_cons, if_pos rfl, if_pos rfl]
        simp [lookupList, hnone]
      · rw [mapFind?_cons, if_neg (fun hh => h hh.symm), if_neg h]
    · by_cases h2 : k = e.1
      · simp only [btreeInsert, if_neg h1, if_pos h2]
        by_cases h : a = k
        · have hll : lookupList (e :: rest) k = e.2 := by
            simp only [lookupList]
            rw [mapFind?_cons, if_pos h2.symm]
            rfl
          rw [mapFind?_cons, if_pos ((h.trans h2).symm), if_pos h, hll]
        · rw [mapFind?_cons, if_neg (fun hh => h ((h2.trans hh).symm)), if_neg h,
            mapFind?_cons, if_neg (fun hh => h ((h2.trans hh).symm))]
      · have hstep : btreeInsert k i (e :: rest) = e :: btreeInsert k i rest := by
          simp only [btreeInsert, if_neg h1, if_neg h2]
        by_cases h : a = e.1
        · have hak : ¬a = k := fun hh => h2 (hh.symm.trans h)
          rw [hstep, mapFind?_cons, if_pos h.symm, if_neg hak, mapFind?_cons,
            if_pos h.symm]
        · have he : ¬e.1 = a := fun hh => h hh.symm
          rw [hstep, mapFind?_cons, if_neg he, ih hm.2]
          by_cases hak : a = k
          · have hll : lookupList (e :: rest) k = lookupList rest k := by
              simp only [lookupList]
              rw [mapFind?_cons, if_neg (fun hh => h2 hh.symm)]
            rw [if_pos hak, if_pos hak, hll]
          · rw [if_neg hak, if_neg hak, mapFind?_cons, if_neg he]

lemma parseActionAux_sorted (ts : List Transition) (i0 : ℕ) (m : List (ℤ × List ℕ))
    (hm : MapSorted m) : MapSorted (parseActionAux ts i0 m) := by
  induction ts generalizing i0 m with
  | nil => exact hm
  | cons t ts ih => exact ih (i0 + 1) _ (btreeInsert_sorted hm)

lemma lookupList_btreeInsert (k : ℤ) (i : ℕ) (m : List (ℤ × List ℕ))
    (hm : MapSorted m) (a : ℤ) :
    lookupList (btreeInsert k i m) a =
      if a = k then lookupList m k ++ [i] else lookupList m a := by
  simp only [lookupList, mapFind?_btreeInsert k i m hm a]
  by_cases h : a = k
  · rw [if_pos h, if_pos h]
    rfl
  · rw [if_neg h, if_neg h]

lemma parseActionAux_lookupList (ts : List Transition) (i0 : ℕ)
    (m : List (ℤ × List ℕ)) (hm : MapSorted m) (a : ℤ) :
    lookupList (parseActionAux ts i0 m) a = lookupList m a ++ actIndices ts i0 a := by
  induction ts generalizing i0 m with
  | nil => simp [parseActionAux, actIndices]
  | cons t ts ih =>
    rw [parseActionAux, ih (i0 + 1) _ (btreeInsert_sorted hm), actIndices,
      lookupList_btreeInsert t.action i0 m hm a]
    by_cases h : a = t.action
    · rw [if_pos h, if_pos h.symm, h]
      simp
    · rw [if_neg h, if_neg (fun hh => h hh.symm)]
      simp

lemma parseActionAux_isSome (ts : List Transition) (i0 : ℕ)
    (m : List (ℤ × List ℕ)) (hm : MapSorted m) (a : ℤ) :
    (mapFind? (parseActionAux ts i0 m) a).isSome ↔
      (mapFind? m a).isSome ∨ actIndices ts i0 a ≠ [] := by
  induction ts generalizing i0 m with
  | nil => simp [parseActionAux, actIndices]
  | cons t ts ih =>
    rw [parseActionAux, ih (i0 + 1) _ (btreeInsert_sorted hm), actIndices,
      mapFind?_btreeInsert t.action i0 m hm a]
    by_cases h : a = t.action
    · simp [if_pos h, h]
    · have h2 : ¬t.action = a := fun hh => h hh.symm
      simp [if_neg h, if_neg h2]

lemma actIndices_mem (ts : List Transition) (i0 : ℕ) (a : ℤ) (j : ℕ) :
    j ∈ actIndices ts i0 a ↔
      ∃ off, off < ts.length ∧ j = i0 + off ∧ (ts.getD off default).action = a := by
  induction ts generalizing i0 with
  | nil => simp [actIndices]
  | cons t ts ih =>
    rw [actIndices, List.mem_append, ih (i0 + 1)]
    constructor
    · rintro (h | ⟨off, hlen, rfl, hact⟩)
      · refine ⟨0, by simp, ?_, ?_⟩
        · by_cases ht : t.action = a
          · simp [ht] at h
            omega
          · simp [ht] at h
        · by_cases ht : t.action = a
          · simpa using ht
          · simp [ht] at h
      · exact ⟨off + 1, by simpa using hlen, by omega, by simpa using hact⟩
    · rintro ⟨off, hlen, rfl, hact⟩
      match off with
      | 0 =>
        left
        simp at hact
        simp [hact]
      | off + 1 =>
        right
        exact ⟨off, by simpa using hlen, by omega, by simpa using hact⟩

lemma actIndices_ne_nil (ts : List Transition) (i0 : ℕ) (a : ℤ) :
    actIndices ts i0 a ≠ [] ↔ ∃ t ∈ ts, t.action = a := by
  induction ts generalizing i0 with
  | nil => simp [actIndices]
  | cons t ts ih =>
    rw [actIndices]
    by_cases h : t.action = a
    · simp [h]
    · simp only [if_neg h, List.nil_append, ih (i0 + 1), List.mem_cons]
      constructor
      · rintro ⟨t2, ht2, ha⟩
        exact ⟨t2, Or.inr ht2, ha⟩
      · rintro ⟨t2, ht2 | ht2, ha⟩
        · rw [ht2] at ha
          exact absurd ha h
        · exact ⟨t2, ht2, ha⟩

lemma parse_action_sorted (ts : List Transition) : MapSorted (Graph.parse_action ts) :=
  parseActionAux_sorted ts 0 [] (by simp [MapSorted])

/-- The per-action index built by `parse_action` maps `a` to exactly
the positions of the transitions tagged `a`, in order. -/
lemma parse_action_lookup (ts : List Transition) (a : ℤ) (j : ℕ) :
    j ∈ lookupList (Graph.parse_action ts) a ↔
      j < ts.length ∧ (ts.getD j default).action = a := by
  rw [Graph.parse_action, parseActionAux_lookupList ts 0 [] (by simp [MapSorted]) a]
  rw [lookupList, mapFind?_nil]
  simp only [Option.getD_none, List.nil_append]
  rw [actIndices_mem]
  constructor
  · rintro ⟨off, hlen, rfl, hact⟩
    exact ⟨by omega, by simpa using hact⟩
  · rintro ⟨hlen, hact⟩
    exact ⟨j, hlen, by omega, hact⟩

/-- A key is present in the index exactly when some transition carries
that action tag. -/
lemma parse_action_isSome (ts : List Transition) (a : ℤ) :
    (mapFind? (Graph.parse_action ts) a).isSome ↔ ∃ t ∈ ts, t.action = a := by
  rw [Graph.parse_action, parseActionAux_isSome ts 0 [] (by simp [MapSorted]) a]
  rw [mapFind?_nil]
  simp [actIndices_ne_nil]

/-! ## Structure of the states built by `Graph::setup` -/

/-- The move order of `Graph::setup`'s transition loop: the self move,
the outward moves `1..=L`, then the inward moves `-1..=-L`. -/
def moveList (L : ℤ) : List ℤ :=
  0 :: (rangeIncl 1 L ++ (rangeIncl 1 L).map (fun k => -k))

lemma add_tfm_eq (gi : GraphInfo) (s : State) (k : ℤ) :
    Graph.add_transition_for_move s k gi =
      { s with transition := s.transition ++ [transitionFor gi s.desc k] } := rfl

lemma foldl_add_tfm (gi : GraphInfo) (ks : List ℤ) (s : State) :
    ks.foldl (fun st k => Graph.add_transition_for_move st k gi) s =
      { s with transition := s.transition ++ ks.map (transitionFor gi s.desc) } := by
  induction ks generalizing s with
  | nil => simp
  | cons k ks ih =>
    rw [List.foldl_cons, ih, add_tfm_eq]
    simp [List.append_assoc]

lemma setupState_eq (gi : GraphInfo) (c : Option GraphChange) (m n : ℤ) :
    setupState gi c m n =
      { setupStateBase gi c m n with
        transition := (moveList gi.move_limit).map
          (transitionFor gi (setupStateBase gi c m n).desc),
        action := Graph.parse_action ((moveList gi.move_limit).map
          (transitionFor gi (setupStateBase gi c m n).desc)) } := by
  have hfold2 : ∀ (s : State), (rangeIncl 1 gi.move_limit).foldl
      (fun st k => Graph.add_transition_for_move st (-k) gi) s =
      { s with transition := s.transition ++
          ((rangeIncl 1 gi.move_limit).map (fun k => -k)).map (transitionFor gi s.desc) } := by
    intro s
    rw [← List.foldl_map (fun (k : ℤ) => -k)
      (fun st k => Graph.add_transition_for_move st k gi), foldl_add_tfm]
  simp only [setupState]
  rw [add_tfm_eq, foldl_add_tfm, hfold2]
  simp [moveList, List.map_cons, List.map_append, List.append_assoc, setupStateBase,
    State.new]

lemma setup_state_mem {gi : GraphInfo} {c : Option GraphChange} {s : State} :
    s ∈ (Graph.setup gi c).state ↔
      ∃ m n, (0 ≤ m ∧ m ≤ gi.state_range) ∧ (0 ≤ n ∧ n ≤ gi.state_range) ∧
        s = setupState gi c m n := by
  simp only [Graph.setup, List.mem_flatMap, List.mem_map, rangeIncl_mem]
  constructor
  · rintro ⟨n, hn, m, hm, rfl⟩
    exact ⟨m, n, hm, hn, rfl⟩
  · rintro ⟨m, n, hm, hn, rfl⟩
    exact ⟨n, hn, m, hm, rfl⟩

lemma rangeIncl_nodup (a b : ℤ) : (rangeIncl a b).Nodup := by
  rw [rangeIncl]
  refine List.Nodup.map ?_ (List.nodup_range _)
  intro x y h
  have h2 : a + (x : ℤ) = a + (y : ℤ) := h
  omega

lemma moveList_mem {L k : ℤ} (hL : 0 ≤ L) : k ∈ moveList L ↔ -L ≤ k ∧ k ≤ L := by
  simp only [moveList, List.mem_cons, List.mem_append, List.mem_map, rangeIncl_mem]
  constructor
  · rintro (rfl | ⟨h1, h2⟩ | ⟨x, ⟨hx1, hx2⟩, rfl⟩)
    · omega
    · omega
    · omega
  · rintro ⟨h1, h2⟩
    rcases lt_trichotomy k 0 with h | h | h
    · exact Or.inr (Or.inr ⟨-k, ⟨by omega, by omega⟩, by omega⟩)
    · exact Or.inl h
    · exact Or.inr (Or.inl ⟨by omega, h2⟩)

lemma moveList_nodup (L : ℤ) : (moveList L).Nodup := by
  rw [moveList]
  refine List.nodup_cons.mpr ⟨?_, ?_⟩
  · intro h
    rcases List.mem_append.mp h with h | h
    · have := rangeIncl_mem.mp h
      omega
    · obtain ⟨x, hx, hx0⟩ := List.mem_map.mp h
      have := rangeIncl_mem.mp hx
      omega
  · refine List.Nodup.append (rangeIncl_nodup 1 L)
      (List.Nodup.map (fun x y h => by
        have h2 : -x = -y := h
        omega) (rangeIncl_nodup 1 L)) ?_
    intro x hx hx2
    obtain ⟨y, hy, hy0⟩ := List.mem_map.mp hx2
    have h1 := rangeIncl_mem.mp hx
    have h2 := rangeIncl_mem.mp hy
    omega

/-! ## C3: transition destinations -/

/-- C3: every transition the model builder emits goes to
`(clamp(round(m − expRental0 − k + truncatedExpectation(R, returnDist0)), 0, R),
clamp(round(n − expRental1 + k + truncatedExpectation(R, returnDist1)), 0, R))`,
where the expected rentals stored in the state are the truncated
expectations at the state's own counts while the return expectations
always use the ceiling `R`; in particular every destination lies in
`[0, R]²`. -/
theorem C3_transition_destinations (gi : GraphInfo) (c : Option GraphChange)
    (hR : 0 ≤ gi.state_range) (s : State) (hs : s ∈ (Graph.setup gi c).state)
    (t : Transition) (ht : t ∈ s.transition) :
    t.to_ =
      (max (min gi.state_range (rustRound ((s.count.1 : ℚ) - s.rent.1 - (t.action : ℚ) +
        Graph.expected_count gi.state_range.toNat gi.dist_return_0))) 0,
       max (min gi.state_range (rustRound ((s.count.2 : ℚ) - s.rent.2 + (t.action : ℚ) +
        Graph.expected_count gi.state_range.toNat gi.dist_return_1))) 0) ∧
    s.rent.1 = Graph.expected_count s.count.1.toNat gi.dist_rent_0 ∧
    s.rent.2 = Graph.expected_count s.count.2.toNat gi.dist_rent_1 ∧
    (0 ≤ t.to_.1 ∧ t.to_.1 ≤ gi.state_range ∧ 0 ≤ t.to_.2 ∧ t.to_.2 ≤ gi.state_range) := by
  obtain ⟨m, n, hm, hn, rfl⟩ := setup_state_mem.mp hs
  rw [setupState_eq] at ht
  obtain ⟨k, _, rfl⟩ := List.mem_map.mp ht
  refine ⟨?_, ?_, ?_, ?_⟩
  · rw [setupState_eq]
    simp [transitionFor, State.count, State.rent]
  · rw [setupState_eq]
    simp [State.count, State.rent, setupStateBase, State.new]
  · rw [setupState_eq]
    simp [State.count, State.rent, setupStateBase, State.new]
  · refine ⟨le_max_right _ _, max_le (min_le_left _ _) hR,
      le_max_right _ _, max_le (min_le_left _ _) hR⟩

/-- C3 witness: the unique state of the minimal scenario and its self
transition. -/
theorem C3_transition_destinations_witness :
    (0 ≤ gi0.state_range ∧ s0 ∈ (Graph.setup gi0 (some ch0)).state ∧
      s0.transition.getD 0 default ∈ s0.transition) ∧
    (0 ≤ (s0.transition.getD 0 default).to_.1 ∧
      (s0.transition.getD 0 default).to_.1 ≤ gi0.state_range) :=
  ⟨⟨by decide, by with_unfolding_all decide, by with_unfolding_all decide⟩,
    (C3_transition_destinations gi0 (some ch0) (by decide) s0
      (by with_unfolding_all decide) (s0.transition.getD 0 default)
      (by with_unfolding_all decide)).2.2.2.1,
    (C3_transition_destinations gi0 (some ch0) (by decide) s0
      (by with_unfolding_all decide) (s0.transition.getD 0 default)
      (by with_unfolding_all decide)).2.2.2.2.1⟩

/-! ## C5: one transition per action value, and the per-action index -/

/-- C5: after construction every state has exactly one transition per
action value, in the order self, outward `1..=L`, inward `-1..=-L` —
`2L+1` transitions in total, each with probability `1` — and the
per-action index, built only after the transition list is complete,
maps each action value to exactly the positions of that state's
transitions carrying that tag. -/
theorem C5_transitions_complete (gi : GraphInfo) (c : Option GraphChange)
    (hL : 0 ≤ gi.move_limit) (s : State) (hs : s ∈ (Graph.setup gi c).state) :
    (s.transition.map (fun t => t.action) = moveList gi.move_limit) ∧
    s.transition.length = (2 * gi.move_limit + 1).toNat ∧
    (∀ t ∈ s.transition, t.prob = 1) ∧
    (∀ k, -gi.move_limit ≤ k → k ≤ gi.move_limit →
      (s.transition.map (fun t => t.action)).count k = 1) ∧
    (∀ a j, j ∈ lookupList s.action a ↔
      j < s.transition.length ∧ (s.transition.getD j default).action = a) ∧
    (∀ a, (mapFind? s.action a).isSome ↔ ∃ t ∈ s.transition, t.action = a) := by
  obtain ⟨m, n, hm, hn, rfl⟩ := setup_state_mem.mp hs
  have htags : (setupState gi c m n).transition.map (fun t => t.action) =
      moveList gi.move_limit := by
    rw [setupState_eq]
    simp only [List.map_map]
    have : ((fun t => t.action) ∘ transitionFor gi (setupStateBase gi c m n).desc) =
        fun k => k := by
      funext k
      rfl
    rw [this, List.map_id']
  refine ⟨htags, ?_, ?_, ?_, ?_, ?_⟩
  · have := congrArg List.length htags
    rw [List.length_map] at this
    rw [this, moveList, List.length_cons, List.length_append, List.length_map,
      rangeIncl_length]
    omega
  · intro t ht
    rw [setupState_eq] at ht
    obtain ⟨k, _, rfl⟩ := List.mem_map.mp ht
    rfl
  · intro k hk1 hk2
    rw [htags]
    exact List.count_eq_one_of_mem (moveList_nodup _) ((moveList_mem hL).mpr ⟨hk1, hk2⟩)
  · intro a j
    rw [show (setupState gi c m n).action =
        Graph.parse_action (setupState gi c m n).transition from by
      rw [setupState_eq]]
    exact parse_action_lookup _ a j
  · intro a
    rw [show (setupState gi c m n).action =
        Graph.parse_action (setupState gi c m n).transition from by
      rw [setupState_eq]]
    rw [parse_action_isSome]

/-- C5 witness: the unique state of the minimal scenario has
transitions tagged `0, 1, -1`, and its index maps `1` to position
`1`. -/
theorem C5_transitions_complete_witness :
    (0 ≤ gi0.move_limit ∧ s0 ∈ (Graph.setup gi0 (some ch0)).state) ∧
    s0.transition.length = (2 * gi0.move_limit + 1).toNat ∧
    (1 ∈ lookupList s0.action 1 ↔
      1 < s0.transition.length ∧ (s0.transition.getD 1 default).action = 1) :=
  ⟨⟨by decide, by with_unfolding_all decide⟩,
    (C5_transitions_complete gi0 (some ch0) (by decide) s0
      (by with_unfolding_all decide)).2.1,
    (C5_transitions_complete gi0 (some ch0) (by decide) s0
      (by with_unfolding_all decide)).2.2.2.2.1 1 1⟩

/-! ## The evaluation sweep: in-place update order -/

lemma getD_eq_get? {α : Type} [Inhabited α] (l : List α) (n : ℕ) (d : α) :
    l.getD n d = (l.get? n).getD d := by
  rw [List.getD_eq_getElem?_getD, List.get?_eq_getElem?]

lemma sweepStep_length (p : Policy) (d : ℚ) (g : Graph) (i : ℕ) :
    (sweepStep p d g i).state.length = g.state.length := List.length_set ..

lemma sweepStep_get?_ne (p : Policy) (d : ℚ) (g : Graph) (i j : ℕ) (h : i ≠ j) :
    (sweepStep p d g i).state.get? j = g.state.get? j := List.get?_set_ne _ _ h

lemma sweepStep_get?_eq (p : Policy) (d : ℚ) (g : Graph) (i : ℕ)
    (h : i < g.state.length) :
    (sweepStep p d g i).state.get? i =
      some { g.state.getD i default with
             state_v := evalState g p d (g.state.getD i default) } :=
  List.get?_set_eq_of_lt _ h

lemma sweepGo_length (p : Policy) (d : ℚ) :
    ∀ (fuel : ℕ) (g : Graph) (i : ℕ) (delta : ℚ),
      (sweepGo p d fuel g i delta).1.state.length = g.state.length := by
  intro fuel
  induction fuel with
  | zero => intro g i delta; rfl
  | succ fuel ih =>
    intro g i delta
    rw [sweepGo, ih, sweepStep_length]

lemma sweepGo_get?_lt (p : Policy) (d : ℚ) :
    ∀ (fuel : ℕ) (g : Graph) (i : ℕ) (delta : ℚ) (j : ℕ), j < i →
      (sweepGo p d fuel g i delta).1.state.get? j = g.state.get? j := by
  intro fuel
  induction fuel with
  | zero => intro g i delta j _; rfl
  | succ fuel ih =>
    intro g i delta j hj
    rw [sweepGo, ih _ _ _ j (by omega)]
    exact sweepStep_get?_ne p d g i j (by omega)

/-- Everything about a state except its value estimate. -/
def State.frame (s : State) : StateDesc × ℚ × List (ℤ × List ℕ) × List Transition :=
  (s.desc, s.reward, s.action, s.transition)

lemma map_set_frame (l : List State) (i : ℕ) (x : State)
    (hx : x.frame = (l.getD i default).frame) :
    (l.set i x).map State.frame = l.map State.frame := by
  refine List.ext_get?_iff.mpr (fun n => ?_)
  rw [List.get?_map, List.get?_map]
  by_cases hi : i = n
  · subst hi
    by_cases hlen : i < l.length
    · rw [List.get?_set_eq_of_lt x hlen]
      have : l.get? i = some (l.getD i default) := by
        rw [getD_eq_get?]
        cases h : l.get? i with
        | none => exact absurd (List.get?_eq_none.mp h) (by omega)
        | some v => rfl
      rw [this]
      simp [hx]
    · rw [List.set_eq_of_length_le (by omega)]
  · rw [List.get?_set_ne _ _ hi]

lemma sweepGo_frame (p : Policy) (d : ℚ) :
    ∀ (fuel : ℕ) (g : Graph) (i : ℕ) (delta : ℚ),
      (sweepGo p d fuel g i delta).1.action = g.action ∧
      (sweepGo p d fuel g i delta).1.state_range = g.state_range ∧
      (sweepGo p d fuel g i delta).1.move_limit = g.move_limit ∧
      (sweepGo p d fuel g i delta).1.state.map State.frame = g.state.map State.frame := by
  intro fuel
  induction fuel with
  | zero => intro g i delta; exact ⟨rfl, rfl, rfl, rfl⟩
  | succ fuel ih =>
    intro g i delta
    rw [sweepGo]
    refine ⟨(ih ..).1, (ih ..).2.1, (ih ..).2.2.1, ?_⟩
    rw [(ih ..).2.2.2]
    exact map_set_frame _ _ _ rfl

lemma sweepStep_drop (p : Policy) (d : ℚ) (g : Graph) (i j : ℕ) (h : i < j) :
    (sweepStep p d g i).state.drop j = g.state.drop j := by
  refine List.ext_get?_iff.mpr (fun m => ?_)
  rw [List.get?_drop, List.get?_drop]
  exact sweepStep_get?_ne p d g i (j + m) (by omega)

lemma sweepGo_spec (p : Policy) (d : ℚ) :
    ∀ (fuel : ℕ) (g : Graph) (i : ℕ) (delta : ℚ),
      i + fuel = g.state.length →
      ∀ j, i ≤ j → j < g.state.length →
      (sweepGo p d fuel g i delta).1.state.get? j =
        some { g.state.getD j default with
               state_v := evalState
                 { g with state := (sweepGo p d fuel g i delta).1.state.take j ++
                    g.state.drop j } p d (g.state.getD j default) } := by
  intro fuel
  induction fuel with
  | zero =>
    intro g i delta hlen j hij hj
    omega
  | succ fuel ih =>
    intro g i delta hlen j hij hj
    have hi : i < g.state.length := by omega
    rcases Nat.eq_or_lt_of_le hij with rfl | hlt
    · rw [sweepGo, sweepGo_get?_lt p d fuel _ (i + 1) _ i (by omega),
        sweepStep_get?_eq p d g i hi]
      have htake : (sweepGo p d (fuel + 1) g i delta).1.state.take i =
          g.state.take i := by
        refine List.ext_get?_iff.mpr (fun m => ?_)
        by_cases hm : m < i
        · rw [List.get?_take hm, List.get?_take hm, sweepGo,
            sweepGo_get?_lt p d fuel _ (i + 1) _ m (by omega),
            sweepStep_get?_ne p d g i m (by omega)]
        · have hl1 : ((sweepGo p d (fuel + 1) g i delta).1.state.take i).length ≤ m := by
            rw [List.length_take, sweepGo_length]
            omega
          have hl2 : (g.state.take i).length ≤ m := by
            rw [List.length_take]
            omega
          rw [List.get?_eq_none.mpr hl1, List.get?_eq_none.mpr hl2]
      rw [sweepGo] at htake
      rw [htake, List.take_append_drop]
    · rw [sweepGo, ih (sweepStep p d g i) (i + 1) _
        (by rw [sweepStep_length]; omega) j (by omega)
        (by rw [sweepStep_length]; omega)]
      rw [show (sweepStep p d g i).state.getD j default = g.state.getD j default from by
        rw [getD_eq_get?, getD_eq_get?, sweepStep_get?_ne p d g i j (by omega)]]
      rw [sweepStep_drop p d g i j hlt]
      rfl

lemma sweepGo_delta_le (p : Policy) (d : ℚ) :
    ∀ (fuel : ℕ) (g : Graph) (i : ℕ) (delta : ℚ),
      delta ≤ (sweepGo p d fuel g i delta).2 := by
  intro fuel
  induction fuel with
  | zero => intro g i delta; exact le_refl _
  | succ fuel ih =>
    intro g i delta
    rw [sweepGo]
    exact le_trans (le_max_left ..) (ih ..)

lemma sweepGo_getD_at (p : Policy) (d : ℚ) (fuel : ℕ) (g : Graph) (i : ℕ) (delta : ℚ)
    (hi : i < g.state.length) :
    (sweepGo p d (fuel + 1) g i delta).1.state.getD i default =
      { g.state.getD i default with
        state_v := evalState g p d (g.state.getD i default) } := by
  rw [getD_eq_get?, sweepGo, sweepGo_get?_lt p d fuel _ (i + 1) _ i (by omega),
    sweepStep_get?_eq p d g i hi]
  rfl

lemma sweepStep_getD_ne (p : Policy) (d : ℚ) (g : Graph) (i j : ℕ) (h : i ≠ j) :
    (sweepStep p d g i).state.getD j default = g.state.getD j default := by
  rw [getD_eq_get?, getD_eq_get?, sweepStep_get?_ne p d g i j h]

lemma sweepGo_getD_at_v (p : Policy) (d : ℚ) (fuel : ℕ) (g : Graph) (i : ℕ)
    (delta : ℚ) (hi : i < g.state.length) :
    ((sweepGo p d (fuel + 1) g i delta).1.state.getD i default).state_v =
      evalState g p d (g.state.getD i default) := by
  rw [sweepGo_getD_at p d fuel g i delta hi]

lemma sweepGo_delta_bound (p : Policy) (d : ℚ) :
    ∀ (fuel : ℕ) (g : Graph) (i : ℕ) (delta : ℚ),
      i + fuel = g.state.length →
      ∀ j, i ≤ j → j < g.state.length →
      |((sweepGo p d fuel g i delta).1.state.getD j default).state_v -
        (g.state.getD j default).state_v| ≤ (sweepGo p d fuel g i delta).2 := by
  intro fuel
  induction fuel with
  | zero =>
    intro g i delta hlen j hij hj
    omega
  | succ fuel ih =>
    intro g i delta hlen j hij hj
    have hi : i < g.state.length := by omega
    rcases Nat.eq_or_lt_of_le hij with rfl | hlt
    · rw [sweepGo_getD_at_v p d fuel g i delta hi]
      have hle : max delta |evalState g p d (g.state.getD i default) -
          (g.state.getD i default).state_v| ≤ (sweepGo p d (fuel + 1) g i delta).2 := by
        rw [sweepGo]
        exact sweepGo_delta_le p d fuel _ _ _
      exact le_trans (le_max_right _ _) hle
    · have hres : (sweepGo p d (fuel + 1) g i delta) =
          sweepGo p d fuel (sweepStep p d g i) (i + 1)
            (max delta |evalState g p d (g.state.getD i default) -
              (g.state.getD i default).state_v|) := by
        rw [sweepGo]
      rw [hres, show g.state.getD j default = (sweepStep p d g i).state.getD j default
        from (sweepStep_getD_ne p d g i j (by omega)).symm]
      exact ih (sweepStep p d g i) (i + 1) _ (by rw [sweepStep_length]; omega) j
        (by omega) (by rw [sweepStep_length]; omega)

lemma sweepGo_delta_attained (p : Policy) (d : ℚ) :
    ∀ (fuel : ℕ) (g : Graph) (i : ℕ) (delta : ℚ),
      i + fuel = g.state.length →
      (sweepGo p d fuel g i delta).2 = delta ∨
      ∃ j, i ≤ j ∧ j < g.state.length ∧
        (sweepGo p d fuel g i delta).2 =
          |((sweepGo p d fuel g i delta).1.state.getD j default).state_v -
            (g.state.getD j default).state_v| := by
  intro fuel
  induction fuel with
  | zero => intro g i delta _; exact Or.inl rfl
  | succ fuel ih =>
    intro g i delta hlen
    have hi : i < g.state.length := by omega
    have hres : (sweepGo p d (fuel + 1) g i delta) =
        sweepGo p d fuel (sweepStep p d g i) (i + 1)
          (max delta |evalState g p d (g.state.getD i default) -
            (g.state.getD i default).state_v|) := by
      rw [sweepGo]
    rcases ih (sweepStep p d g i) (i + 1)
        (max delta |evalState g p d (g.state.getD i default) -
          (g.state.getD i default).state_v|)
        (by rw [sweepStep_length]; omega) with h | ⟨j, hij, hj, h⟩
    · rcases max_choice delta |evalState g p d (g.state.getD i default) -
          (g.state.getD i default).state_v| with hmax | hmax
      · exact Or.inl (by rw [hres, h, hmax])
      · refine Or.inr ⟨i, le_refl i, hi, ?_⟩
        rw [sweepGo_getD_at_v p d fuel g i delta hi, hres, h, hmax]
    · refine Or.inr ⟨j, by omega, by rw [sweepStep_length] at hj; exact hj, ?_⟩
      rw [hres, h, sweepStep_getD_ne p d g i j (by omega)]

/-! ## C1: Gauss–Seidel evaluation sweep -/

/-- C1: during one evaluation sweep, the value written to the state at
position `j` equals the sum, over the transition indices of the action
assigned by the policy, of `prob × (stateReward + actionReward +
discount × successorValue)` — where the lookups go through the graph
whose first `j` states already carry their updated values and whose
remaining states still carry their pre-sweep values (in-place
Gauss–Seidel order); and the sweep's `delta` bounds every state's
absolute change and is attained by one of them (or is the initial
`0`). -/
theorem C1_sweep_gauss_seidel (g : Graph) (p : Policy) (d : ℚ) (j : ℕ)
    (hj : j < g.state.length) :
    ((sweep g p d).1.state.getD j default).state_v =
      (((mapFind? (g.state.getD j default).action
          (p.actionOf (g.state.getD j default).count)).getD []).map (fun idx =>
        ((g.state.getD j default).transition.getD idx default).prob *
          Transition.reward ((g.state.getD j default).transition.getD idx default)
            { g with state := (sweep g p d).1.state.take j ++ g.state.drop j } d)).sum ∧
    |((sweep g p d).1.state.getD j default).state_v -
      (g.state.getD j default).state_v| ≤ (sweep g p d).2 ∧
    ((sweep g p d).2 = 0 ∨ ∃ j2, j2 < g.state.length ∧
      (sweep g p d).2 =
        |((sweep g p d).1.state.getD j2 default).state_v -
          (g.state.getD j2 default).state_v|) := by
  refine ⟨?_, ?_, ?_⟩
  · have h := sweepGo_spec p d g.state.length g 0 0 (by omega) j (by omega) hj
    rw [sweep, getD_eq_get?, h]
    simp [evalState, lookahead]
  · rw [sweep]
    exact sweepGo_delta_bound p d g.state.length g 0 0 (by omega) j (by omega) hj
  · rw [sweep]
    rcases sweepGo_delta_attained p d g.state.length g 0 0 (by omega) with h | ⟨j2, _, hj2, h⟩
    · exact Or.inl h
    · exact Or.inr ⟨j2, hj2, h⟩

/-- C1 witness: the sweep formula and delta bound at the unique state
of the minimal scenario. -/
theorem C1_sweep_gauss_seidel_witness :
    0 < g0.state.length ∧
    |((sweep g0 p0 (9 / 10)).1.state.getD 0 default).state_v -
      (g0.state.getD 0 default).state_v| ≤ (sweep g0 p0 (9 / 10)).2 :=
  ⟨by with_unfolding_all decide,
    (C1_sweep_gauss_seidel g0 p0 (9 / 10) 0 (by with_unfolding_all decide)).2.1⟩

/-! ## C6: evaluation terminates within the sweep budget -/

lemma sweepN_shift (p : Policy) (d : ℚ) (g : Graph) :
    ∀ n, sweepN p d g (n + 1) = sweepN p d (sweep g p d).1 n := by
  intro n
  induction n with
  | zero => rfl
  | succ n ih => rw [sweepN, ih, sweepN]

lemma deltaN_shift (p : Policy) (d : ℚ) (g : Graph) (m : ℕ) (hm : 1 ≤ m) :
    deltaN p d g (m + 1) = deltaN p d (sweep g p d).1 m := by
  rw [deltaN, deltaN, show m + 1 - 1 = (m - 1) + 1 from by omega, sweepN_shift]

lemma evalLoop_spec (p : Policy) (info : AgentInfo) :
    ∀ (fuel : ℕ) (g : Graph),
      1 ≤ (evalLoop p info g fuel).2 ∧
      (evalLoop p info g fuel).2 ≤ fuel + 1 ∧
      (evalLoop p info g fuel).1 = sweepN p info.discount g (evalLoop p info g fuel).2 ∧
      (∀ m, 1 ≤ m → m < (evalLoop p info g fuel).2 →
        info.theta < deltaN p info.discount g m) ∧
      ((evalLoop p info g fuel).2 ≤ fuel →
        deltaN p info.discount g (evalLoop p info g fuel).2 ≤ info.theta) := by
  intro fuel
  induction fuel with
  | zero =>
    intro g
    have h0 : (evalLoop p info g 0).2 = 1 := rfl
    refine ⟨le_refl 1, by rw [h0], rfl, fun m h1 h2 => by rw [h0] at h2; omega,
      fun h => by rw [h0] at h; omega⟩
  | succ fuel ih =>
    intro g
    by_cases hstop : (sweep g p info.discount).2 ≤ info.theta
    · have e : evalLoop p info g (fuel + 1) = ((sweep g p info.discount).1, 1) := by
        rw [evalLoop, if_pos hstop]
      have e2 : (evalLoop p info g (fuel + 1)).2 = 1 := by rw [e]
      have e1 : (evalLoop p info g (fuel + 1)).1 = (sweep g p info.discount).1 := by
        rw [e]
      refine ⟨by rw [e2], by rw [e2]; omega, by rw [e1, e2]; rfl,
        fun m h1 h2 => by rw [e2] at h2; omega, fun _ => by rw [e2]; exact hstop⟩
    · have e : evalLoop p info g (fuel + 1) =
          ((evalLoop p info (sweep g p info.discount).1 fuel).1,
           (evalLoop p info (sweep g p info.discount).1 fuel).2 + 1) := by
        rw [evalLoop, if_neg hstop]
      have e2 : (evalLoop p info g (fuel + 1)).2 =
          (evalLoop p info (sweep g p info.discount).1 fuel).2 + 1 := by rw [e]
      have e1 : (evalLoop p info g (fuel + 1)).1 =
          (evalLoop p info (sweep g p info.discount).1 fuel).1 := by rw [e]
      obtain ⟨ih1, ih2, ih3, ih4, ih5⟩ := ih (sweep g p info.discount).1
      refine ⟨by rw [e2]; omega, by rw [e2]; omega, ?_, ?_, ?_⟩
      · rw [e1, e2, show (evalLoop p info (sweep g p info.discount).1 fuel).2 + 1 =
          ((evalLoop p info (sweep g p info.discount).1 fuel).2 - 1 + 1) + 1 from by
            omega, sweepN_shift,
          show (evalLoop p info (sweep g p info.discount).1 fuel).2 - 1 + 1 =
            (evalLoop p info (sweep g p info.discount).1 fuel).2 from by omega]
        exact ih3
      · intro m h1 h2
        rw [e2] at h2
        match m, h1 with
        | 1, _ => exact not_le.mp hstop
        | m + 2, _ =>
          rw [show m + 2 = (m + 1) + 1 from rfl,
            deltaN_shift p info.discount g (m + 1) (by omega)]
          exact ih4 (m + 1) (by omega) (by omega)
      · intro hle
        rw [e2] at hle
        rw [e2, deltaN_shift p info.discount g _ ih1]
        exact ih5 (by omega)

/-- C6: policy evaluation always terminates: when `max_iter ≥ 1` it
performs between `1` and `max_iter` sweeps, stopping at the first sweep
whose `delta` is at most `theta` (every earlier sweep has
`delta > theta`), and in the forced-cutoff case (`max_iter` sweeps with
the last `delta` still above `theta`) the values produced by the last
sweep are accepted as-is — the result is always exactly the `n`-fold
iterated sweep, no error. -/
theorem C6_eval_terminates (g : Graph) (p : Policy) (info : AgentInfo)
    (hmax : 1 ≤ info.max_iter) :
    1 ≤ (evalLoop p info g (info.max_iter - 1).toNat).2 ∧
    ((evalLoop p info g (info.max_iter - 1).toNat).2 : ℤ) ≤ info.max_iter ∧
    evaluate_policy g p info =
      sweepN p info.discount g (evalLoop p info g (info.max_iter - 1).toNat).2 ∧
    (∀ m, 1 ≤ m → m < (evalLoop p info g (info.max_iter - 1).toNat).2 →
      info.theta < deltaN p info.discount g m) ∧
    (((evalLoop p info g (info.max_iter - 1).toNat).2 : ℤ) < info.max_iter →
      deltaN p info.discount g (evalLoop p info g (info.max_iter - 1).toNat).2 ≤
        info.theta) := by
  obtain ⟨h1, h2, h3, h4, h5⟩ := evalLoop_spec p info (info.max_iter - 1).toNat g
  refine ⟨h1, by omega, h3, h4, fun hlt => h5 (by omega)⟩

/-- C6 witness: on the minimal scenario the loop stops after one sweep
(`delta = 0 ≤ theta`), within the budget of `16`. -/
theorem C6_eval_terminates_witness :
    1 ≤ info0.max_iter ∧
    ((evalLoop p0 info0 g0 (info0.max_iter - 1).toNat).2 : ℤ) ≤ info0.max_iter :=
  ⟨by decide, (C6_eval_terminates g0 p0 info0 (by decide)).2.1⟩

/-! ## C9: frame conditions of the two passes -/

lemma frame_fields {l1 l2 : List State}
    (h : l1.map State.frame = l2.map State.frame) (j : ℕ) :
    (l1.getD j default).desc = (l2.getD j default).desc ∧
    (l1.getD j default).reward = (l2.getD j default).reward ∧
    (l1.getD j default).action = (l2.getD j default).action ∧
    (l1.getD j default).transition = (l2.getD j default).transition := by
  have h0 : (l1.get? j).map State.frame = (l2.get? j).map State.frame := by
    rw [← List.get?_map, ← List.get?_map, h]
  rw [getD_eq_get?, getD_eq_get?]
  cases h1 : l1.get? j with
  | none =>
    cases h2 : l2.get? j with
    | none => exact ⟨rfl, rfl, rfl, rfl⟩
    | some w => rw [h1, h2] at h0; simp at h0
  | some v =>
    cases h2 : l2.get? j with
    | none => rw [h1, h2] at h0; simp at h0
    | some w =>
      rw [h1, h2] at h0
      simp only [Option.map_some', Option.some_inj, State.frame, Prod.mk.injEq] at h0
      exact ⟨h0.1, h0.2.1, h0.2.2.1, h0.2.2.2⟩

lemma evalLoop_frame (p : Policy) (info : AgentInfo) :
    ∀ (fuel : ℕ) (g : Graph),
      (evalLoop p info g fuel).1.action = g.action ∧
      (evalLoop p info g fuel).1.state_range = g.state_range ∧
      (evalLoop p info g fuel).1.move_limit = g.move_limit ∧
      (evalLoop p info g fuel).1.state.map State.frame = g.state.map State.frame := by
  intro fuel
  induction fuel with
  | zero =>
    intro g
    exact sweepGo_frame p info.discount g.state.length g 0 0
  | succ fuel ih =>
    intro g
    by_cases hstop : (sweep g p info.discount).2 ≤ info.theta
    · have e : evalLoop p info g (fuel + 1) = ((sweep g p info.discount).1, 1) := by
        rw [evalLoop, if_pos hstop]
      rw [e]
      exact sweepGo_frame p info.discount g.state.length g 0 0
    · have e1 : (evalLoop p info g (fuel + 1)).1 =
          (evalLoop p info (sweep g p info.discount).1 fuel).1 := by
        rw [evalLoop, if_neg hstop]
      obtain ⟨f1, f2, f3, f4⟩ := ih (sweep g p info.discount).1
      obtain ⟨s1, s2, s3, s4⟩ := sweepGo_frame p info.discount g.state.length g 0 0
      rw [e1]
      exact ⟨f1.trans s1, f2.trans s2, f3.trans s3, f4.trans s4⟩

lemma setAct_range (p : Policy) (c : ℤ × ℤ) (a : ℤ) :
    (p.setAct c a).state_range = p.state_range := by
  rcases hi : ndIdx2 p.state_range c with _ | i
  · simp [Policy.setAct, hi]
  · simp [Policy.setAct, hi]

lemma setAct_length (p : Policy) (c : ℤ × ℤ) (a : ℤ) :
    (p.setAct c a).state_action.length = p.state_action.length := by
  rcases hi : ndIdx2 p.state_range c with _ | i
  · simp [Policy.setAct, hi]
  · simp [Policy.setAct, hi]

lemma setAct_get?_ne (p : Policy) (c : ℤ × ℤ) (a : ℤ) (j : ℕ)
    (h : ndIdx2 p.state_range c ≠ some j) :
    (p.setAct c a).state_action.get? j = p.state_action.get? j := by
  rcases hi : ndIdx2 p.state_range c with _ | i
  · simp [Policy.setAct, hi]
  · simp only [Policy.setAct, hi]
    exact List.get?_set_ne _ _ (fun he => h (by rw [hi, he]))

lemma improveGo_range (g : Graph) (info : AgentInfo) :
    ∀ (l : List State) (acc : Policy × Bool),
      (improveGo g info l acc).1.state_range = acc.1.state_range := by
  intro l
  induction l with
  | nil => intro acc; rfl
  | cons s rest ih =>
    intro acc
    rw [improveGo, ih]
    exact setAct_range ..

lemma improveGo_length (g : Graph) (info : AgentInfo) :
    ∀ (l : List State) (acc : Policy × Bool),
      (improveGo g info l acc).1.state_action.length = acc.1.state_action.length := by
  intro l
  induction l with
  | nil => intro acc; rfl
  | cons s rest ih =>
    intro acc
    rw [improveGo, ih]
    exact setAct_length ..

lemma improveGo_get?_untouched (g : Graph) (info : AgentInfo) :
    ∀ (l : List State) (acc : Policy × Bool) (j : ℕ),
      (∀ s ∈ l, ndIdx2 acc.1.state_range s.count ≠ some j) →
      (improveGo g info l acc).1.state_action.get? j = acc.1.state_action.get? j := by
  intro l
  induction l with
  | nil => intro acc j _; rfl
  | cons s rest ih =>
    intro acc j h
    rw [improveGo, ih _ j (fun s2 hs2 => by
      rw [setAct_range]
      exact h s2 (List.mem_cons_of_mem s hs2))]
    exact setAct_get?_ne _ _ _ j (h s (List.mem_cons_self s rest))

/-- C9: after construction, a policy-evaluation pass leaves the action
collection, the container bounds, the state count, and every state's
descriptor, reward, per-action index and transition list unchanged —
only value estimates may change (the policy is not touched: evaluation
only reads it); a policy-improvement pass leaves the whole model
unchanged (it only reads the graph) and can change the policy vector
only at slots addressed by some state's count pair, preserving its
bound and length. -/
theorem C9_frame_conditions (g : Graph) (p : Policy) (info : AgentInfo) :
    ((evaluate_policy g p info).action = g.action ∧
     (evaluate_policy g p info).state_range = g.state_range ∧
     (evaluate_policy g p info).move_limit = g.move_limit ∧
     (evaluate_policy g p info).state.length = g.state.length ∧
     (∀ j : ℕ,
       ((evaluate_policy g p info).state.getD j default).desc =
         (g.state.getD j default).desc ∧
       ((evaluate_policy g p info).state.getD j default).reward =
         (g.state.getD j default).reward ∧
       ((evaluate_policy g p info).state.getD j default).action =
         (g.state.getD j default).action ∧
       ((evaluate_policy g p info).state.getD j default).transition =
         (g.state.getD j default).transition)) ∧
    ((improve_policy p g info).1.state_range = p.state_range ∧
     (improve_policy p g info).1.state_action.length = p.state_action.length ∧
     (∀ j : ℕ, (∀ s ∈ g.state, ndIdx2 p.state_range s.count ≠ some j) →
       (improve_policy p g info).1.state_action.get? j = p.state_action.get? j)) := by
  obtain ⟨f1, f2, f3, f4⟩ := evalLoop_frame p info (info.max_iter - 1).toNat g
  refine ⟨⟨f1, f2, f3, ?_, fun j => frame_fields f4 j⟩, ?_, ?_, ?_⟩
  · have := congrArg List.length f4
    rw [List.length_map, List.length_map] at this
    exact this
  · exact improveGo_range g info g.state (p, true)
  · exact improveGo_length g info g.state (p, true)
  · intro j hj
    exact improveGo_get?_untouched g info g.state (p, true) j hj

/-- C9 witness: on the minimal scenario, evaluation preserves the
action collection, and improvement leaves the (out-of-range) policy
slot `7` untouched. -/
theorem C9_frame_conditions_witness :
    (evaluate_policy g0 p0 info0).action = g0.action ∧
    ((∀ s ∈ g0.state, ndIdx2 p0.state_range s.count ≠ some 7) ∧
      (improve_policy p0 g0 info0).1.state_action.get? 7 = p0.state_action.get? 7) :=
  ⟨(C9_frame_conditions g0 p0 info0).1.1,
   by with_unfolding_all decide,
   (C9_frame_conditions g0 p0 info0).2.2.2 7 (by with_unfolding_all decide)⟩

/-! ## `max_by` selection -/

lemma foldl_max_mem :
    ∀ (ys : List (ℤ × ℚ)) (acc : ℤ × ℚ),
      ys.foldl (fun acc y => if acc.2 ≤ y.2 then y else acc) acc ∈ acc :: ys := by
  intro ys
  induction ys with
  | nil => intro acc; exact List.mem_singleton.mpr rfl
  | cons y ys ih =>
    intro acc
    rw [List.foldl_cons]
    by_cases h : acc.2 ≤ y.2
    · rw [if_pos h]
      rcases List.mem_cons.mp (ih y) with h2 | h2
      · exact List.mem_cons.mpr (Or.inr (List.mem_cons.mpr (Or.inl h2)))
      · exact List.mem_cons.mpr (Or.inr (List.mem_cons.mpr (Or.inr h2)))
    · rw [if_neg h]
      rcases List.mem_cons.mp (ih acc) with h2 | h2
      · exact List.mem_cons.mpr (Or.inl h2)
      · exact List.mem_cons.mpr (Or.inr (List.mem_cons.mpr (Or.inr h2)))

lemma maxByLast_mem {l : List (ℤ × ℚ)} {m : ℤ × ℚ} (h : maxByLast l = some m) :
    m ∈ l := by
  match l with
  | [] => exact absurd h (by simp [maxByLast])
  | x :: xs =>
    rw [maxByLast, Option.some_inj] at h
    rw [← h]
    exact foldl_max_mem xs x

lemma maxByLast_isSome {l : List (ℤ × ℚ)} (h : l ≠ []) : (maxByLast l).isSome := by
  match l with
  | [] => exact absurd rfl h
  | x :: xs => rfl

/-- The fold of `max_by` returns a maximal element, and — because
later elements win ties — an element with a larger key can only appear
if its value is strictly smaller (keys strictly ascending). -/
lemma foldl_max_spec :
    ∀ (ys : List (ℤ × ℚ)) (acc : ℤ × ℚ),
      List.Pairwise (fun e1 e2 => e1.1 < e2.1) (acc :: ys) →
      (∀ y ∈ acc :: ys,
        y.2 ≤ (ys.foldl (fun acc y => if acc.2 ≤ y.2 then y else acc) acc).2) ∧
      (∀ y ∈ acc :: ys,
        y.2 = (ys.foldl (fun acc y => if acc.2 ≤ y.2 then y else acc) acc).2 →
        y.1 ≤ (ys.foldl (fun acc y => if acc.2 ≤ y.2 then y else acc) acc).1) := by
  intro ys
  induction ys with
  | nil =>
    intro acc _
    constructor
    · intro y hy
      rw [List.mem_singleton.mp hy]
      exact le_refl _
    · intro y hy _
      rw [List.mem_singleton.mp hy]
      exact le_refl _
  | cons y ys ih =>
    intro acc hp
    have hp1 : ∀ b ∈ y :: ys, acc.1 < b.1 := (List.pairwise_cons.mp hp).1
    have hpy : List.Pairwise (fun e1 e2 => e1.1 < e2.1) (y :: ys) :=
      (List.pairwise_cons.mp hp).2
    have hpacc : List.Pairwise (fun e1 e2 => e1.1 < e2.1) (acc :: ys) := by
      refine hp.sublist ?_
      refine List.cons_sublist_cons.mpr ?_
      exact List.sublist_cons_self y ys
    rw [List.foldl_cons]
    by_cases h : acc.2 ≤ y.2
    · rw [if_pos h]
      obtain ⟨b1, b2⟩ := ih y hpy
      constructor
      · intro z hz
        rcases List.mem_cons.mp hz with rfl | hz2
        · exact le_trans h (b1 y (List.mem_cons_self y ys))
        · exact b1 z hz2
      · intro z hz he
        rcases List.mem_cons.mp hz with rfl | hz2
        · have hmem := foldl_max_mem ys y
          exact le_of_lt (hp1 _ hmem)
        · exact b2 z hz2 he
    · rw [if_neg h]
      obtain ⟨b1, b2⟩ := ih acc hpacc
      constructor
      · intro z hz
        rcases List.mem_cons.mp hz with h1 | hz2
        · rw [h1]
          exact b1 acc (List.mem_cons_self acc ys)
        · rcases List.mem_cons.mp hz2 with h1 | hz3
          · rw [h1]
            exact le_trans (le_of_lt (not_le.mp h))
              (b1 acc (List.mem_cons_self acc ys))
          · exact b1 z (List.mem_cons.mpr (Or.inr hz3))
      · intro z hz he
        rcases List.mem_cons.mp hz with h1 | hz2
        · rw [h1]
          exact b2 acc (List.mem_cons_self acc ys) (by rw [h1] at he; exact he)
        · rcases List.mem_cons.mp hz2 with h1 | hz3
          · have hlt : y.2 < (ys.foldl
                (fun acc y => if acc.2 ≤ y.2 then y else acc) acc).2 :=
              lt_of_lt_of_le (not_le.mp h) (b1 acc (List.mem_cons_self acc ys))
            rw [h1] at he
            exact absurd he (ne_of_lt hlt)
          · exact b2 z (List.mem_cons.mpr (Or.inr hz3)) he

lemma mapFind?_isSome_iff (m : List (ℤ × List ℕ)) (a : ℤ) :
    (mapFind? m a).isSome ↔ ∃ e ∈ m, e.1 = a := by
  rw [mapFind?]
  cases hf : m.find? (fun e => e.1 == a) with
  | none =>
    simp only [Option.map_none', Option.isSome_none, Bool.false_eq_true, false_iff]
    rw [List.find?_eq_none] at hf
    rintro ⟨e, he, hea⟩
    exact absurd (beq_iff_eq.mpr hea) (by simpa using hf e he)
  | some e =>
    simp only [Option.map_some', Option.isSome_some, true_iff]
    have hp := List.find?_some hf
    simp only [beq_iff_eq] at hp
    exact ⟨e, List.mem_of_find?_eq_some hf, hp⟩

/-! ## C10: lookups and unwraps cannot fail -/

lemma setupState_action_eq (gi : GraphInfo) (c : Option GraphChange) (m n : ℤ) :
    (setupState gi c m n).action =
      Graph.parse_action (setupState gi c m n).transition := by
  rw [setupState_eq]

lemma setupState_tags (gi : GraphInfo) (c : Option GraphChange) (m n : ℤ) :
    (setupState gi c m n).transition.map (fun t => t.action) = moveList gi.move_limit := by
  rw [setupState_eq]
  simp only [List.map_map]
  have : ((fun t => t.action) ∘ transitionFor gi (setupStateBase gi c m n).desc) =
      fun k => k := by
    funext k
    rfl
  rw [this, List.map_id']

/-- On every state the model builder produces, an action key is present
in the per-action index exactly when it lies in `[-L, L]`. -/
lemma setup_action_keys (gi : GraphInfo) (c : Option GraphChange)
    (hL : 0 ≤ gi.move_limit) {s : State} (hs : s ∈ (Graph.setup gi c).state) (a : ℤ) :
    (mapFind? s.action a).isSome ↔ (-gi.move_limit ≤ a ∧ a ≤ gi.move_limit) := by
  obtain ⟨m, n, hm, hn, rfl⟩ := setup_state_mem.mp hs
  rw [setupState_action_eq, parse_action_isSome]
  constructor
  · rintro ⟨t, ht, rfl⟩
    have : t.action ∈ (setupState gi c m n).transition.map (fun t => t.action) :=
      List.mem_map_of_mem _ ht
    rw [setupState_tags] at this
    exact (moveList_mem hL).mp this
  · intro ha
    have : a ∈ (setupState gi c m n).transition.map (fun t => t.action) := by
      rw [setupState_tags]
      exact (moveList_mem hL).mpr ha
    obtain ⟨t, ht, hta⟩ := List.mem_map.mp this
    exact ⟨t, ht, hta⟩

lemma actionOf_range (L : ℤ) (p : Policy) (hL : 0 ≤ L) (hp : PolicyInRange L p)
    (c : ℤ × ℤ) : -L ≤ p.actionOf c ∧ p.actionOf c ≤ L := by
  rw [Policy.actionOf]
  cases ha : p.actionOf? c with
  | none =>
    simp only [Option.getD_none]
    omega
  | some a =>
    simp only [Option.getD_some]
    rw [Policy.actionOf?] at ha
    cases hi : ndIdx2 p.state_range c with
    | none => rw [hi] at ha; simp at ha
    | some i =>
      rw [hi] at ha
      simp only [Option.some_bind] at ha
      exact hp a (List.get?_mem ha)

lemma selectAction_key {g : Graph} {d : ℚ} {s : State} {a : ℤ}
    (h : selectAction g d s = some a) : ∃ e ∈ s.action, e.1 = a := by
  rw [selectAction] at h
  cases hm : maxByLast (s.action.map (fun e => (e.1, lookahead g d s e.2))) with
  | none => rw [hm] at h; simp at h
  | some mx =>
    rw [hm] at h
    simp only [Option.map_some', Option.some_inj] at h
    obtain ⟨e, he, hme⟩ := List.mem_map.mp (maxByLast_mem hm)
    refine ⟨e, he, ?_⟩
    rw [← h, ← hme]

lemma setAct_inv (L : ℤ) (p : Policy) (c : ℤ × ℤ) (a : ℤ)
    (hp : PolicyInRange L p) (ha : -L ≤ a ∧ a ≤ L) :
    PolicyInRange L (p.setAct c a) := by
  intro x hx
  rcases hi : ndIdx2 p.state_range c with _ | i
  · rw [Policy.setAct, hi] at hx
    exact hp x hx
  · rw [Policy.setAct, hi] at hx
    simp only at hx
    rcases List.mem_or_eq_of_mem_set hx with h2 | h2
    · exact hp x h2
    · rw [h2]
      exact ha

lemma improveGo_inv (g : Graph) (info : AgentInfo) (L : ℤ) :
    ∀ (l : List State) (acc : Policy × Bool),
      (∀ s ∈ l, -L ≤ (selectAction g info.discount s).getD 0 ∧
        (selectAction g info.discount s).getD 0 ≤ L) →
      PolicyInRange L acc.1 → PolicyInRange L (improveGo g info l acc).1 := by
  intro l
  induction l with
  | nil => intro acc _ hp; exact hp
  | cons s rest ih =>
    intro acc hsel hp
    rw [improveGo]
    exact ih _ (fun s2 hs2 => hsel s2 (List.mem_cons_of_mem s hs2))
      (setAct_inv L acc.1 s.count _ hp (hsel s (List.mem_cons_self s rest)))

lemma setup_selected_range (gi : GraphInfo) (c : Option GraphChange) (d : ℚ)
    (hL : 0 ≤ gi.move_limit) {s : State} (hs : s ∈ (Graph.setup gi c).state) :
    -gi.move_limit ≤ (selectAction (Graph.setup gi c) d s).getD 0 ∧
      (selectAction (Graph.setup gi c) d s).getD 0 ≤ gi.move_limit := by
  cases hsel : selectAction (Graph.setup gi c) d s with
  | none =>
    simp only [Option.getD_none]
    omega
  | some a =>
    simp only [Option.getD_some]
    obtain ⟨e, he, rfl⟩ := selectAction_key hsel
    refine (setup_action_keys gi c hL hs e.1).mp ?_
    exact (mapFind?_isSome_iff s.action e.1).mpr ⟨e, he, rfl⟩

/-- C10: the policy starts at `0` for every state, each built state's
per-action index has exactly the keys `[-L, L]`, policy entries stay in
`[-L, L]` across improvement passes, and therefore the map lookup
`s.action[&a]` in policy evaluation and the `.unwrap()` of the maximum
in policy improvement always succeed. -/
theorem C10_lookup_safety (gi : GraphInfo) (c : Option GraphChange) (info : AgentInfo)
    (p : Policy) (hL : 0 ≤ gi.move_limit) :
    (∀ a ∈ (Policy.new gi).state_action, a = 0) ∧
    PolicyInRange gi.move_limit (Policy.new gi) ∧
    (∀ s ∈ (Graph.setup gi c).state, ∀ a,
      (mapFind? s.action a).isSome ↔ (-gi.move_limit ≤ a ∧ a ≤ gi.move_limit)) ∧
    (PolicyInRange gi.move_limit p → ∀ s ∈ (Graph.setup gi c).state,
      (mapFind? s.action (p.actionOf s.count)).isSome) ∧
    (∀ s ∈ (Graph.setup gi c).state,
      (selectAction (Graph.setup gi c) info.discount s).isSome) ∧
    (PolicyInRange gi.move_limit p →
      PolicyInRange gi.move_limit (improve_policy p (Graph.setup gi c) info).1) := by
  refine ⟨?_, ?_, ?_, ?_, ?_, ?_⟩
  · intro a ha
    exact List.eq_of_mem_replicate ha
  · intro a ha
    rw [List.eq_of_mem_replicate ha]
    omega
  · intro s hs a
    exact setup_action_keys gi c hL hs a
  · intro hp s hs
    rw [setup_action_keys gi c hL hs]
    exact actionOf_range gi.move_limit p hL hp s.count
  · intro s hs
    have hne : s.action ≠ [] := by
      intro hnil
      have h0 := (setup_action_keys gi c hL hs 0).mpr ⟨by omega, by omega⟩
      rw [hnil] at h0
      exact absurd h0 (by simp [mapFind?])
    rw [selectAction, Option.isSome_map']
    exact maxByLast_isSome (by simpa using hne)
  · intro hp
    rw [improve_policy]
    refine improveGo_inv _ info gi.move_limit _ _ (fun s hs => ?_) hp
    exact setup_selected_range gi c info.discount hL hs

/-- C10 witness: on the minimal scenario the fresh policy's lookup and
the greedy selection both succeed, and improvement keeps entries in
range. -/
theorem C10_lookup_safety_witness :
    (0 ≤ gi0.move_limit ∧ PolicyInRange gi0.move_limit p0 ∧
      s0 ∈ (Graph.setup gi0 (some ch0)).state) ∧
    (mapFind? s0.action (p0.actionOf s0.count)).isSome ∧
    (selectAction (Graph.setup gi0 (some ch0)) info0.discount s0).isSome :=
  ⟨⟨by decide, fun a ha => by
      rw [List.eq_of_mem_replicate ha]
      exact ⟨by decide, by decide⟩,
    by with_unfolding_all decide⟩,
   (C10_lookup_safety gi0 (some ch0) info0 p0 (by decide)).2.2.2.1
     (fun a ha => by
       rw [List.eq_of_mem_replicate ha]
       exact ⟨by decide, by decide⟩)
     s0 (by with_unfolding_all decide),
   (C10_lookup_safety gi0 (some ch0) info0 p0 (by decide)).2.2.2.2.1
     s0 (by with_unfolding_all decide)⟩

/-! ## C7: stability of improvement and termination of the outer loop -/

lemma setAct_actionOf_ne (p : Policy) (c c2 : ℤ × ℤ) (a : ℤ)
    (h : ndIdx2 p.state_range c2 ≠ ndIdx2 p.state_range c) :
    (p.setAct c a).actionOf c2 = p.actionOf c2 := by
  rw [Policy.actionOf, Policy.actionOf, Policy.actionOf?, Policy.actionOf?, setAct_range]
  cases hj : ndIdx2 p.state_range c2 with
  | none => rfl
  | some j =>
    simp only [Option.some_bind]
    rw [setAct_get?_ne p c a j (fun he => h (hj.trans he.symm))]

lemma improveGo_actionOf (g : Graph) (info : AgentInfo) :
    ∀ (l : List State) (p1 : Policy) (b : Bool),
      (∀ s ∈ l, (ndIdx2 p1.state_range s.count).isSome ∧
        (ndIdx2 p1.state_range s.count).getD 0 < p1.state_action.length) →
      ((l.map (fun s => ndIdx2 p1.state_range s.count)).Nodup) →
      ∀ s2 ∈ l, (improveGo g info l (p1, b)).1.actionOf s2.count =
        (selectAction g info.discount s2).getD 0 := by
  intro l
  induction l with
  | nil => intro p1 b _ _ s2 hs2; exact absurd hs2 (List.not_mem_nil s2)
  | cons s rest ih =>
    intro p1 b hval hnd s2 hs2
    rw [improveGo]
    rcases List.mem_cons.mp hs2 with h1 | h2
    · subst h1
      obtain ⟨hsome, hlen⟩ := hval s2 (List.mem_cons_self s2 rest)
      rcases hi : ndIdx2 p1.state_range s2.count with _ | i
      · rw [hi] at hsome
        exact absurd hsome (by simp)
      · have hrange : (improveGo g info rest
            (p1.setAct s2.count ((selectAction g info.discount s2).getD 0),
             b && (p1.actionOf s2.count ==
               (selectAction g info.discount s2).getD 0))).1.state_range =
            p1.state_range := by
          rw [improveGo_range]
          exact setAct_range ..
        rw [Policy.actionOf, Policy.actionOf?, hrange, hi]
        simp only [Option.some_bind]
        rw [improveGo_get?_untouched g info rest _ i (fun s3 hs3 => by
          rw [setAct_range]
          intro hcon
          exact (List.nodup_cons.mp hnd).1
            (List.mem_map.mpr ⟨s3, hs3, hcon.trans hi.symm⟩))]
        rw [Policy.setAct, hi]
        simp only
        rw [List.get?_set_eq_of_lt _ (by rw [hi] at hlen; exact hlen)]
        rfl
    · refine ih (p1.setAct s.count ((selectAction g info.discount s).getD 0)) _
        (fun s3 hs3 => ?_) ?_ s2 h2
      · rw [setAct_range, setAct_length]
        exact hval s3 (List.mem_cons_of_mem s hs3)
      · have hmap : rest.map (fun s3 => ndIdx2
            (p1.setAct s.count ((selectAction g info.discount s).getD 0)).state_range
            s3.count) = rest.map (fun s3 => ndIdx2 p1.state_range s3.count) := by
          simp only [setAct_range]
        rw [hmap]
        exact (List.nodup_cons.mp hnd).2

lemma improveGo_stable_iff (g : Graph) (info : AgentInfo) :
    ∀ (l : List State) (p1 : Policy) (b : Bool),
      (∀ s ∈ l, (ndIdx2 p1.state_range s.count).isSome ∧
        (ndIdx2 p1.state_range s.count).getD 0 < p1.state_action.length) →
      ((l.map (fun s => ndIdx2 p1.state_range s.count)).Nodup) →
      ((improveGo g info l (p1, b)).2 = true ↔
        (b = true ∧ ∀ s ∈ l, p1.actionOf s.count =
          (selectAction g info.discount s).getD 0)) := by
  intro l
  induction l with
  | nil =>
    intro p1 b _ _
    simp [improveGo]
  | cons s rest ih =>
    intro p1 b hval hnd
    rw [improveGo]
    rw [ih (p1.setAct s.count ((selectAction g info.discount s).getD 0)) _
      (fun s3 hs3 => by
        rw [setAct_range, setAct_length]
        exact hval s3 (List.mem_cons_of_mem s hs3))
      (by
        have hmap : rest.map (fun s3 => ndIdx2
            (p1.setAct s.count ((selectAction g info.discount s).getD 0)).state_range
            s3.count) = rest.map (fun s3 => ndIdx2 p1.state_range s3.count) := by
          simp only [setAct_range]
        rw [hmap]
        exact (List.nodup_cons.mp hnd).2)]
    have hne : ∀ s2 ∈ rest,
        (p1.setAct s.count ((selectAction g info.discount s).getD 0)).actionOf s2.count =
          p1.actionOf s2.count := by
      intro s2 hs2
      refine setAct_actionOf_ne p1 s.count s2.count _ (fun he => ?_)
      exact (List.nodup_cons.mp hnd).1 (List.mem_map.mpr ⟨s2, hs2, he⟩)
    constructor
    · rintro ⟨hb, hrest⟩
      rw [Bool.and_eq_true, beq_iff_eq] at hb
      refine ⟨hb.1, ?_⟩
      intro s2 hs2
      rcases List.mem_cons.mp hs2 with h1 | h2
      · rw [h1]
        exact hb.2
      · rw [← hne s2 h2]
        exact hrest s2 h2
    · rintro ⟨hb, hall⟩
      refine ⟨?_, ?_⟩
      · rw [Bool.and_eq_true, beq_iff_eq]
        exact ⟨hb, hall s (List.mem_cons_self s rest)⟩
      · intro s2 hs2
        rw [hne s2 hs2]
        exact hall s2 (List.mem_cons_of_mem s hs2)

lemma runLoop_iff (info : AgentInfo) :
    ∀ (fuel : ℕ) (gp : Graph × Policy) (out : Graph × Policy),
      runLoop info gp fuel = some out ↔
        ∃ n, n < fuel ∧ stableAt info gp n = true ∧
          (∀ m, m < n → stableAt info gp m = false) ∧
          out = runState info gp (n + 1) := by
  intro fuel
  induction fuel with
  | zero =>
    intro gp out
    simp [runLoop]
  | succ fuel ih =>
    intro gp out
    have h0 : stableAt info gp 0 = (policy_iteration_step gp.1 gp.2 info).2.2 := rfl
    have hshift1 : ∀ n, runState info gp (n + 1) =
        runState info ((policy_iteration_step gp.1 gp.2 info).1,
          (policy_iteration_step gp.1 gp.2 info).2.1) n := fun n => rfl
    have hshift2 : ∀ n, stableAt info gp (n + 1) =
        stableAt info ((policy_iteration_step gp.1 gp.2 info).1,
          (policy_iteration_step gp.1 gp.2 info).2.1) n := fun n => rfl
    by_cases hst : (policy_iteration_step gp.1 gp.2 info).2.2 = true
    · have e : runLoop info gp (fuel + 1) =
          some ((policy_iteration_step gp.1 gp.2 info).1,
            (policy_iteration_step gp.1 gp.2 info).2.1) := by
        rw [runLoop, if_pos hst]
      rw [e]
      constructor
      · intro h
        refine ⟨0, by omega, by rw [h0]; exact hst, fun m hm => by omega, ?_⟩
        rw [show (0 : ℕ) + 1 = 1 from rfl, hshift1 0]
        exact (Option.some_inj.mp h).symm
      · rintro ⟨n, hn, hstab, hprev, hout⟩
        match n with
        | 0 =>
          rw [hshift1 0] at hout
          rw [hout]
          rfl
        | n + 1 =>
          have := hprev 0 (by omega)
          rw [h0] at this
          rw [this] at hst
          exact absurd hst (by simp)
    · have e : runLoop info gp (fuel + 1) =
          runLoop info ((policy_iteration_step gp.1 gp.2 info).1,
            (policy_iteration_step gp.1 gp.2 info).2.1) fuel := by
        rw [runLoop, if_neg hst]
      rw [e, ih]
      constructor
      · rintro ⟨n, hn, hstab, hprev, hout⟩
        refine ⟨n + 1, by omega, by rw [hshift2]; exact hstab, ?_, ?_⟩
        · intro m hm
          match m with
          | 0 =>
            rw [h0]
            cases hb : (policy_iteration_step gp.1 gp.2 info).2.2
            · rfl
            · exact absurd hb hst
          | m + 1 =>
            rw [hshift2]
            exact hprev m (by omega)
        · rw [hshift1]
          exact hout
      · rintro ⟨n, hn, hstab, hprev, hout⟩
        match n with
        | 0 =>
          rw [h0] at hstab
          exact absurd hstab hst
        | n + 1 =>
          rw [hshift2] at hstab
          rw [hshift1] at hout
          refine ⟨n, by omega, hstab, ?_, hout⟩
          intro m hm
          rw [← hshift2]
          exact hprev (m + 1) (by omega)

/-- C7: an improvement pass returns `policy_stable = true` exactly when
no state's chosen action changed — for every state the freshly selected
greedy action equals the action the policy already assigned; and the
outer loop, which alternates evaluation and improvement, returns
exactly when some round's improvement pass reports no change (the first
such round), with the state it produced. -/
theorem C7_stability (g : Graph) (p : Policy) (info : AgentInfo)
    (hgc : GoodCounts g p) :
    ((improve_policy p g info).2 = true ↔
      ∀ s ∈ g.state, p.actionOf s.count = (selectAction g info.discount s).getD 0) ∧
    (∀ (gp : Graph × Policy) (fuel : ℕ) (out : Graph × Policy),
      runLoop info gp fuel = some out ↔
        ∃ n, n < fuel ∧ stableAt info gp n = true ∧
          (∀ m, m < n → stableAt info gp m = false) ∧
          out = runState info gp (n + 1)) := by
  constructor
  · rw [improve_policy, improveGo_stable_iff g info g.state p true hgc.1 hgc.2]
    simp
  · intro gp fuel out
    exact runLoop_iff info fuel gp out

/-- C7 witness: on the minimal scenario (well-formed counts), the first
improvement pass is unstable precisely because the selected action `1`
differs from the assigned `0`. -/
theorem C7_stability_witness :
    GoodCounts g0 p0 ∧
    ((improve_policy p0 g0 info0).2 = true ↔
      ∀ s ∈ g0.state, p0.actionOf s.count =
        (selectAction g0 info0.discount s).getD 0) :=
  ⟨by with_unfolding_all decide,
   (C7_stability g0 p0 info0 (by with_unfolding_all decide)).1⟩

/-! ## C2: greedy selection and its tie-break -/

/-- C2 counterexample: in the minimal free-shuttle scenario the moves
`0` and `1` tie for the maximal one-step lookahead (both `0`), yet
`max_by` — which returns the last of equally-maximal elements in the
map's ascending key order — selects `1`, not the action of smallest
absolute value (`0`), and improvement writes `1` into the policy. -/
theorem C2_greedy_tiebreak_cex :
    lookahead g0 info0.discount s0 (lookupList s0.action 0) =
      lookahead g0 info0.discount s0 (lookupList s0.action 1) ∧
    (∀ e ∈ s0.action, lookahead g0 info0.discount s0 e.2 ≤
      lookahead g0 info0.discount s0 (lookupList s0.action 1)) ∧
    selectAction g0 info0.discount s0 = some 1 ∧
    (improve_policy p0 g0 info0).1.actionOf (0, 0) = 1 ∧
    (0 : ℤ).natAbs < (1 : ℤ).natAbs ∧ (1 : ℤ) ≠ 0 := by
  with_unfolding_all decide

/-- C2 (amended): for every state the selected action attains the
maximal one-step lookahead sum over all available actions; but when two
or more actions tie for the maximum, the selected action is the one
appearing last in the map's ascending key order — the largest signed
action value among the maximizers — not the one of smallest absolute
value; the selected action is then written into the policy at the
state's count pair. -/
theorem C2_greedy_selection (g : Graph) (p : Policy) (info : AgentInfo)
    (hgc : GoodCounts g p) (s : State) (hs : s ∈ g.state)
    (hsort : List.Pairwise (fun e1 e2 => e1.1 < e2.1) s.action) :
    ((improve_policy p g info).1.actionOf s.count =
      (selectAction g info.discount s).getD 0) ∧
    (s.action ≠ [] → ∃ a v,
      selectAction g info.discount s = some a ∧
      (a, v) ∈ s.action.map (fun e => (e.1, lookahead g info.discount s e.2)) ∧
      (∀ e ∈ s.action, lookahead g info.discount s e.2 ≤ v) ∧
      (∀ e ∈ s.action, lookahead g info.discount s e.2 = v → e.1 ≤ a)) := by
  constructor
  · rw [improve_policy]
    exact improveGo_actionOf g info g.state p true hgc.1 hgc.2 s hs
  · intro hne
    match hent : s.action.map (fun e => (e.1, lookahead g info.discount s e.2)) with
    | [] => exact absurd (List.map_eq_nil.mp hent) hne
    | x :: xs =>
      have hmax : maxByLast (s.action.map
          (fun e => (e.1, lookahead g info.discount s e.2))) =
          some (xs.foldl (fun acc y => if acc.2 ≤ y.2 then y else acc) x) := by
        rw [hent, maxByLast]
      have hpair : List.Pairwise (fun e1 e2 => (e1 : ℤ × ℚ).1 < e2.1) (x :: xs) := by
        rw [← hent]
        rw [List.pairwise_map]
        exact hsort
      obtain ⟨b1, b2⟩ := foldl_max_spec xs x hpair
      refine ⟨(xs.foldl (fun acc y => if acc.2 ≤ y.2 then y else acc) x).1,
        (xs.foldl (fun acc y => if acc.2 ≤ y.2 then y else acc) x).2, ?_, ?_, ?_, ?_⟩
      · rw [selectAction, hmax]
        rfl
      · rw [hent]
        exact foldl_max_mem xs x
      · intro e he
        have : (e.1, lookahead g info.discount s e.2) ∈ x :: xs := by
          rw [← hent]
          exact List.mem_map_of_mem _ he
        exact b1 _ this
      · intro e he hv
        have : (e.1, lookahead g info.discount s e.2) ∈ x :: xs := by
          rw [← hent]
          exact List.mem_map_of_mem _ he
        exact b2 _ this hv

/-- C2 witness: on the minimal scenario (sorted keys, well-formed
counts), the improvement pass writes the selected action. -/
theorem C2_greedy_selection_witness :
    (GoodCounts g0 p0 ∧ s0 ∈ g0.state ∧
      List.Pairwise (fun e1 e2 => (e1 : ℤ × List ℕ).1 < e2.1) s0.action) ∧
    (improve_policy p0 g0 info0).1.actionOf s0.count =
      (selectAction g0 info0.discount s0).getD 0 :=
  ⟨⟨by with_unfolding_all decide, by with_unfolding_all decide,
    by with_unfolding_all decide⟩,
   (C2_greedy_selection g0 p0 info0 (by with_unfolding_all decide) s0
     (by with_unfolding_all decide) (by with_unfolding_all decide)).1⟩

end RLX
